import Mathlib

/-!
# scenarios/interactive/input.go

A shallow embedding of the interactive prompt scenario: `StringPrompt` writes a label to
`os.Stderr`, reads from a `bufio.Reader` over `os.Stdin` until `ReadString` yields a
non-empty string, and returns that string trimmed; `main` prints the answer on `os.Stdout`.

Go strings are byte sequences. The three standard streams are explicit state. The library
calls the program makes (`bufio.Reader.ReadString`, `strings.TrimSpace`, `fmt.Fprint`,
`fmt.Printf`) are modelled after the Go standard library. Loops that the program or the
library runs an unbounded number of times take a step budget and return `none` when it is
used up.
-/

namespace Interactive

/-! ## Strings -/

/-- A Go `string`: an immutable sequence of bytes. -/
abbrev GoString := List UInt8

/-- The bytes of a string literal of the source (UTF-8, as Go source text is). -/
def str (s : String) : GoString := s.toList.flatMap String.utf8EncodeChar

/-- The constant `utf8.RuneError`. -/
def RuneError : Nat := 0xFFFD

/-- The constant `utf8.RuneSelf`: bytes below it are single-byte runes. -/
def RuneSelf : Nat := 0x80

/-- The constant `utf8.UTFMax`. -/
def UTFMax : Nat := 4

/-- Port of `utf8.RuneStart`: the byte is not a continuation byte. -/
def RuneStart (b : UInt8) : Bool := decide (b.toNat / 64 ≠ 2)

/-- Port of `utf8.DecodeRuneInString`: the first rune of `s` and its width in bytes; an
invalid or short encoding gives `(RuneError, 1)`, the empty string `(RuneError, 0)`. -/
def DecodeRuneInString : GoString → Nat × Nat
  | [] => (RuneError, 0)
  | s0 :: rest =>
    let b0 := s0.toNat
    if b0 < RuneSelf then (b0, 1)
    else if b0 < 0xC2 ∨ 0xF4 < b0 then (RuneError, 1)
    else
      let sz := if b0 < 0xE0 then 2 else if b0 < 0xF0 then 3 else 4
      let lo := if b0 = 0xE0 then 0xA0 else if b0 = 0xF0 then 0x90 else 0x80
      let hi := if b0 = 0xED then 0x9F else if b0 = 0xF4 then 0x8F else 0xBF
      if rest.length + 1 < sz then (RuneError, 1)
      else
        match rest with
        | [] => (RuneError, 1)
        | s1 :: rest1 =>
          let b1 := s1.toNat
          if b1 < lo ∨ hi < b1 then (RuneError, 1)
          else if sz ≤ 2 then ((b0 % 32) * 64 + b1 % 64, 2)
          else
            match rest1 with
            | [] => (RuneError, 1)
            | s2 :: rest2 =>
              let b2 := s2.toNat
              if b2 < 0x80 ∨ 0xBF < b2 then (RuneError, 1)
              else if sz ≤ 3 then ((b0 % 16) * 4096 + (b1 % 64) * 64 + b2 % 64, 3)
              else
                match rest2 with
                | [] => (RuneError, 1)
                | s3 :: _ =>
                  let b3 := s3.toNat
                  if b3 < 0x80 ∨ 0xBF < b3 then (RuneError, 1)
                  else ((b0 % 8) * 262144 + (b1 % 64) * 4096 + (b2 % 64) * 64 + b3 % 64, 4)

/-- The backwards scan of `utf8.DecodeLastRuneInString`
(`for start--; start >= lim; start-- { if RuneStart(s[start]) { break } }`), entered with
`start` already decremented; the result is the value of `start` when the loop is left. -/
def scanBack (s : GoString) (lim : Int) : Nat → Int → Int
  | 0, start => start
  | k + 1, start =>
    if start < lim then start
    else if RuneStart (s.getD start.toNat 0) then start
    else scanBack s lim k (start - 1)

/-- Port of `utf8.DecodeLastRuneInString`: the last rune of `s` and its width. -/
def DecodeLastRuneInString (s : GoString) : Nat × Nat :=
  let stop := s.length
  if stop = 0 then (RuneError, 0)
  else
    let r := (s.getD (stop - 1) 0).toNat
    if r < RuneSelf then (r, 1)
    else
      let lim : Int := if (stop : Int) - UTFMax < 0 then 0 else (stop : Int) - UTFMax
      let start0 := scanBack s lim UTFMax ((stop : Int) - 2)
      let start := if start0 < 0 then 0 else start0.toNat
      let (r, size) := DecodeRuneInString (s.drop start)
      if start + size ≠ stop then (RuneError, 1) else (r, size)

/-- Port of `unicode.IsSpace`: the Latin-1 white space, and beyond Latin-1 the code points
of the Unicode `White_Space` property. -/
def IsSpace (r : Nat) : Bool :=
  if r ≤ 0xFF then
    r == 0x09 || r == 0x0A || r == 0x0B || r == 0x0C || r == 0x0D || r == 0x20
      || r == 0x85 || r == 0xA0
  else
    r == 0x1680 || (decide (0x2000 ≤ r) && decide (r ≤ 0x200A)) || r == 0x2028
      || r == 0x2029 || r == 0x202F || r == 0x205F || r == 0x3000

/-- The table `asciiSpace` of package `strings`. -/
def asciiSpace (c : UInt8) : Bool :=
  c == 9 || c == 10 || c == 11 || c == 12 || c == 13 || c == 32

/-- The loop of `strings.TrimLeftFunc` (through `indexFunc(s, f, false)`): drop leading
runes while `f` holds. Every step drops at least one byte, so `s.length` steps suffice. -/
def trimLeftLoop (f : Nat → Bool) : Nat → GoString → GoString
  | 0, s => s
  | n + 1, s =>
    if s = [] then []
    else
      let (r, size) := DecodeRuneInString s
      if f r then trimLeftLoop f n (s.drop size) else s

/-- Port of `strings.TrimLeftFunc`. -/
def TrimLeftFunc (s : GoString) (f : Nat → Bool) : GoString := trimLeftLoop f s.length s

/-- Port of `lastIndexFunc(s, f, false)` of package `strings`: the byte index at which the
last rune not satisfying `f` starts, or `-1`. -/
def lastIndexLoop (s : GoString) (f : Nat → Bool) : Nat → Nat → Int
  | 0, _ => -1
  | n + 1, i =>
    if i = 0 then -1
    else
      let (r, size) := DecodeLastRuneInString (s.take i)
      if f r then lastIndexLoop s f n (i - size) else ((i - size : Nat) : Int)

/-- Port of `strings.TrimRightFunc`. -/
def TrimRightFunc (s : GoString) (f : Nat → Bool) : GoString :=
  let i := lastIndexLoop s f s.length s.length
  if 0 ≤ i ∧ RuneSelf ≤ (s.getD i.toNat 0).toNat then
    s.take (i.toNat + (DecodeRuneInString (s.drop i.toNat)).2)
  else
    s.take (i + 1).toNat

/-- Port of `strings.TrimFunc`. -/
def TrimFunc (s : GoString) (f : Nat → Bool) : GoString :=
  TrimRightFunc (TrimLeftFunc s f) f

/-- The second loop of `strings.TrimSpace`, over the reversed remainder: strip ASCII space
from the end of `s`; at a non-ASCII byte fall back to `TrimRightFunc` on what is left. -/
def trimSpaceRight (s : GoString) : List UInt8 → GoString
  | [] => []
  | c :: before =>
    if RuneSelf ≤ c.toNat then TrimRightFunc s IsSpace
    else if asciiSpace c then trimSpaceRight (s.take before.length) before
    else s

/-- Port of `strings.TrimSpace`: strip leading ASCII space; at a non-ASCII byte fall back
to `TrimFunc` on the remainder; then strip trailing space. -/
def TrimSpace : GoString → GoString
  | [] => []
  | c :: rest =>
    if RuneSelf ≤ c.toNat then TrimFunc (c :: rest) IsSpace
    else if asciiSpace c then TrimSpace rest
    else trimSpaceRight (c :: rest) (c :: rest).reverse

/-- A run of white space: a sequence of byte groups, each the encoding of one rune that
`unicode.IsSpace` accepts. -/
inductive SpaceRun : GoString → Prop where
  | nil : SpaceRun []
  | cons (c rest : GoString) : c ≠ [] → (DecodeRuneInString c).2 = c.length →
      IsSpace (DecodeRuneInString c).1 = true → SpaceRun rest → SpaceRun (c ++ rest)

/-- The formatting done by `fmt.Sprintf` for a format whose only verb is `%s` and operands
that are strings: text is copied and each `%s` is replaced by the next operand. -/
def Sprintf : GoString → List GoString → GoString
  | [], _ => []
  | [c], _ => [c]
  | c :: d :: rest, args =>
    if c = 37 ∧ d = 115 then
      match args with
      | a :: more => a ++ Sprintf rest more
      | [] => str "%!s(MISSING)" ++ Sprintf rest []
    else c :: Sprintf (d :: rest) args

/-- The first raw line of a byte sequence: the bytes up to and including the first `delim`,
or all of them when there is none. -/
def firstLine (delim : UInt8) : GoString → GoString
  | [] => []
  | c :: cs => if c = delim then [c] else c :: firstLine delim cs

/-- What follows the first raw line of a byte sequence. -/
def afterFirstLine (delim : UInt8) : GoString → GoString
  | [] => []
  | c :: cs => if c = delim then cs else afterFirstLine delim cs

/-- The label written `n` times in a row. -/
def repeated (label : GoString) : Nat → GoString
  | 0 => []
  | n + 1 => repeated label n ++ label

/-! ## Streams -/

/-- The errors the reading path can produce. -/
inductive Error where
  | EOF
  | ErrBufferFull
  | ErrNoProgress
  deriving DecidableEq, Repr

/-- The file behind `os.Stdin`: a finite sequence of bytes not read yet, then end of file.
`ready pending` is how many of the pending bytes the operating system hands to the next
read at most: all of them for a regular file, a line at a time for a terminal. A read
blocks until at least one byte is there, so a value of `0` counts as `1`. -/
structure File where
  data : GoString
  ready : GoString → Nat

/-- A regular file (or a pipe whose writer has finished): every pending byte is ready. -/
def regularFile (data : GoString) : File := ⟨data, List.length⟩

/-- A terminal in line mode: a read returns at most the pending line. -/
def terminal (data : GoString) : File := ⟨data, fun pending => (firstLine 10 pending).length⟩

/-- The method `(*os.File).Read` with `len(p) = n`: the bytes stored into `p`, the error,
the file afterwards. No byte left is `io.EOF`. -/
def File.Read (f : File) (n : Nat) : GoString × Option Error × File :=
  if n = 0 then ([], none, f)
  else if f.data = [] then ([], some .EOF, f)
  else
    let k := min n (max 1 (f.ready f.data))
    (f.data.take k, none, { f with data := f.data.drop k })

/-- The constant `defaultBufSize` of package `bufio`. -/
def defaultBufSize : Nat := 4096

/-- The constant `maxConsecutiveEmptyReads` of package `bufio`. -/
def maxConsecutiveEmptyReads : Nat := 100

/-- A `bufio.Reader` of the default size: `buf` is the buffered part not handed out yet
(`b.buf[b.r:b.w]`), `rd` the underlying reader, `err` the error kept for the next call. -/
structure Reader where
  buf : GoString
  rd : File
  err : Option Error

/-- The constructor `bufio.NewReader`. -/
def NewReader (rd : File) : Reader := ⟨[], rd, none⟩

/-- The read loop of `(*bufio.Reader).fill`, `i` tries left: one read into the free part of
the buffer; an error is kept, a read of no byte without error is tried again. -/
def Reader.fillLoop : Nat → Reader → Reader
  | 0, b => { b with err := some .ErrNoProgress }
  | i + 1, b =>
    match b.rd.Read (defaultBufSize - b.buf.length) with
    | (p, e, rd) =>
      let b1 : Reader := { b with buf := b.buf ++ p, rd := rd }
      match e with
      | some e => { b1 with err := some e }
      | none => if p.length > 0 then b1 else Reader.fillLoop i b1

/-- Port of `(*bufio.Reader).fill`. `ReadSlice` calls it only on a buffer that is not
full, so its panic on a full buffer is never reached and is left out. -/
def Reader.fill (b : Reader) : Reader := b.fillLoop maxConsecutiveEmptyReads

/-- Port of `bytes.IndexByte`, with `none` for `-1`. -/
def IndexByte : GoString → UInt8 → Option Nat
  | [], _ => none
  | c :: cs, d => if c = d then some 0 else (IndexByte cs d).map (· + 1)

/-- The delimiter occurs in `s` at its last position or not at all, as in the buffer of a
reader that is handed at most a line at a time. -/
def delimOnlyLast (d : UInt8) (s : GoString) : Prop :=
  ∀ i, IndexByte s d = some i → i + 1 = s.length

/-- The loop of `(*bufio.Reader).ReadSlice`: search the buffer; else hand out the buffer
with a kept error; else report a full buffer; else fill and go round again. `none` when the
step budget is used up. The index from which the original resumes its search after a fill
only spares it a second look at bytes that hold no delimiter, and is left out. -/
def Reader.ReadSliceLoop (delim : UInt8) : Nat → Reader → Option (GoString × Option Error × Reader)
  | 0, _ => none
  | fuel + 1, b =>
    match IndexByte b.buf delim with
    | some i => some (b.buf.take (i + 1), none, { b with buf := b.buf.drop (i + 1) })
    | none =>
      match b.err with
      | some e => some (b.buf, some e, { b with buf := [], err := none })
      | none =>
        if b.buf.length ≥ defaultBufSize then
          some (b.buf, some .ErrBufferFull, { b with buf := [] })
        else Reader.ReadSliceLoop delim fuel b.fill

/-- Port of `(*bufio.Reader).ReadSlice`. Each round but the last two reads at least one
byte of the file, which bounds the rounds. -/
def Reader.ReadSlice (b : Reader) (delim : UInt8) : Option (GoString × Option Error × Reader) :=
  b.ReadSliceLoop delim (b.rd.data.length + 2)

/-- The loop of `(*bufio.Reader).collectFragments`, with the full buffers collected so far:
`ReadSlice` until it finds the delimiter or fails with something other than a full buffer. -/
def Reader.collectLoop (delim : UInt8) : Nat → Reader → GoString → Option (GoString × Option Error × Reader)
  | 0, _, _ => none
  | fuel + 1, b, full =>
    match b.ReadSlice delim with
    | none => none
    | some (frag, none, b1) => some (full ++ frag, none, b1)
    | some (frag, some .ErrBufferFull, b1) => Reader.collectLoop delim fuel b1 (full ++ frag)
    | some (frag, some e, b1) => some (full ++ frag, some e, b1)

/-- Port of `(*bufio.Reader).ReadString`: the data up to and including the delimiter, or
the data read before an error together with that error. -/
def Reader.ReadString (b : Reader) (delim : UInt8) : Option (GoString × Option Error × Reader) :=
  b.collectLoop delim (b.buf.length + b.rd.data.length + 1) []

/-- The call `fmt.Fprint(w, a)` for one string operand: the operand is written as it is. -/
def Fprint (w : GoString) (a : GoString) : GoString := w ++ a

/-- The call `fmt.Printf(format, a)` on standard output, for a string operand. -/
def Printf (stdout : GoString) (format : GoString) (a : GoString) : GoString :=
  stdout ++ Sprintf format [a]

/-- The process's standard streams: the file behind `os.Stdin`, and the bytes written so
far to `os.Stdout` and `os.Stderr`. -/
structure World where
  stdin : File
  stdout : GoString
  stderr : GoString

/-! ## The program -/

/-- Where the `for` loop of `StringPrompt` stands: about to prompt and read, or left
through `break`. -/
inductive Phase where
  | Waiting
  | Done
  deriving DecidableEq, Repr

/-- The state of `StringPrompt` between iterations: the locals `s` and `r`, the bytes on
`os.Stderr`, and as a record of the run the raw result of every `ReadString` so far. -/
structure Loop where
  phase : Phase
  s : GoString
  r : Reader
  stderr : GoString
  reads : List GoString

/-- The state in which `StringPrompt` enters its loop: `var s string` and
`r := bufio.NewReader(os.Stdin)`. -/
def enter (w : World) : Loop := ⟨.Waiting, [], NewReader w.stdin, w.stderr, []⟩

/-- One pass through the body of the loop:
`fmt.Fprint(os.Stderr, label)`, `s, _ = r.ReadString(10)`, `if s != "" { break }`. -/
def attempt (label : GoString) (st : Loop) : Option Loop :=
  let stderr := Fprint st.stderr label
  match st.r.ReadString 10 with
  | none => none
  | some (s, _, r) =>
    some ⟨if s ≠ [] then .Done else .Waiting, s, r, stderr, st.reads ++ [s]⟩

/-- The loop of `StringPrompt`, run for at most `n` passes. -/
def loop (label : GoString) : Nat → Loop → Option Loop
  | 0, st => some st
  | n + 1, st =>
    match st.phase with
    | .Done => some st
    | .Waiting => (attempt label st).bind (loop label n)

/-- The function `StringPrompt` with a budget of `fuel` passes through its loop: the
returned string and the streams afterwards, or `none` while the loop has not been left.
The reader `r` is local: what it still buffers is dropped with it. -/
def StringPrompt (label : GoString) (fuel : Nat) (w : World) : Option (GoString × World) :=
  match loop label fuel (enter w) with
  | none => none
  | some st =>
    match st.phase with
    | .Waiting => none
    | .Done => some (TrimSpace st.s, { w with stdin := st.r.rd, stderr := st.stderr })

/-- The function `main`: ask, then print the answer. -/
def main (fuel : Nat) (w : World) : Option World :=
  match StringPrompt (str "Question? ") fuel w with
  | none => none
  | some (answer, w1) =>
    some { w1 with stdout := Printf w1.stdout (str "Answer: %s\n") answer }

/-! ## White space and TrimSpace -/

theorem DecodeRune_stable (s : GoString)
    (h : ¬ ((DecodeRuneInString s).1 = RuneError ∧ (DecodeRuneInString s).2 ≤ 1)) :
    ∃ c u, s = c ++ u ∧ c.length = (DecodeRuneInString s).2 ∧ c ≠ [] ∧
      ∀ v, DecodeRuneInString (c ++ v) = DecodeRuneInString s := by
  have l2 : ∀ n : Nat, ¬ n + 1 + 1 < 2 := fun n => by omega
  have l3 : ∀ n : Nat, ¬ n + 1 + 1 + 1 < 3 := fun n => by omega
  have l4 : ∀ n : Nat, ¬ n + 1 + 1 + 1 + 1 < 4 := fun n => by omega
  rcases s with _ | ⟨s0, rest⟩
  · simp [DecodeRuneInString] at h
  · by_cases h0 : s0.toNat < RuneSelf
    · exact ⟨[s0], rest, rfl, by simp [DecodeRuneInString, h0], by simp,
        fun v => by simp [DecodeRuneInString, h0]⟩
    · by_cases h1 : s0.toNat < 0xC2 ∨ 0xF4 < s0.toNat
      · exfalso; apply h; simp [DecodeRuneInString, h0, h1]
      · rcases rest with _ | ⟨s1, rest1⟩
        · exfalso; apply h; simp [DecodeRuneInString, h0, h1]
        · by_cases hb1 :
              s1.toNat < (if s0.toNat = 0xE0 then 0xA0 else if s0.toNat = 0xF0 then 0x90 else 0x80) ∨
              (if s0.toNat = 0xED then 0x9F else if s0.toNat = 0xF4 then 0x8F else 0xBF) < s1.toNat
          · exfalso; apply h; simp [DecodeRuneInString, h0, h1, hb1]
          · by_cases hsz2 : s0.toNat < 0xE0
            · refine ⟨[s0, s1], rest1, rfl, ?_, by simp, fun v => ?_⟩
              · simp [DecodeRuneInString, h0, h1, hb1, hsz2, l2]
              · simp [DecodeRuneInString, h0, h1, hb1, hsz2, l2]
            · rcases rest1 with _ | ⟨s2, rest2⟩
              · exfalso; apply h
                by_cases hsz3 : s0.toNat < 0xF0 <;>
                  simp [DecodeRuneInString, h0, h1, hb1, hsz2, hsz3]
              · by_cases hb2 : s2.toNat < 0x80 ∨ 0xBF < s2.toNat
                · exfalso; apply h
                  by_cases hsz3 : s0.toNat < 0xF0 <;>
                    simp [DecodeRuneInString, h0, h1, hb1, hsz2, hsz3, hb2]
                · by_cases hsz3 : s0.toNat < 0xF0
                  · refine ⟨[s0, s1, s2], rest2, rfl, ?_, by simp, fun v => ?_⟩
                    · simp [DecodeRuneInString, h0, h1, hb1, hsz2, hsz3, hb2, l3]
                    · simp [DecodeRuneInString, h0, h1, hb1, hsz2, hsz3, hb2, l3]
                  · rcases rest2 with _ | ⟨s3, rest3⟩
                    · exfalso; apply h
                      simp [DecodeRuneInString, h0, h1, hb1, hsz2, hsz3, hb2]
                    · by_cases hb3 : s3.toNat < 0x80 ∨ 0xBF < s3.toNat
                      · exfalso; apply h
                        simp [DecodeRuneInString, h0, h1, hb1, hsz2, hsz3, hb2, hb3]
                      · refine ⟨[s0, s1, s2, s3], rest3, rfl, ?_, by simp, fun v => ?_⟩
                        · simp [DecodeRuneInString, h0, h1, hb1, hsz2, hsz3, hb2, hb3, l4]
                        · simp [DecodeRuneInString, h0, h1, hb1, hsz2, hsz3, hb2, hb3, l4]

theorem SpaceRun_append (a b : GoString) (ha : SpaceRun a) (hb : SpaceRun b) :
    SpaceRun (a ++ b) := by
  induction ha with
  | nil => simpa using hb
  | cons c rest hc hlen hsp _ ih =>
    rw [List.append_assoc]
    exact SpaceRun.cons c (rest ++ b) hc hlen hsp ih

theorem IsSpace_RuneError : IsSpace RuneError = false := by decide

theorem asciiSpace_IsSpace (c : UInt8) (hc : c.toNat < RuneSelf) :
    IsSpace c.toNat = asciiSpace c := by
  have h9 : (c = 9) ↔ c.toNat = 9 := ⟨fun h => by rw [h]; rfl, fun h => UInt8.ext (by rw [h]; rfl)⟩
  have h10 : (c = 10) ↔ c.toNat = 10 := ⟨fun h => by rw [h]; rfl, fun h => UInt8.ext (by rw [h]; rfl)⟩
  have h11 : (c = 11) ↔ c.toNat = 11 := ⟨fun h => by rw [h]; rfl, fun h => UInt8.ext (by rw [h]; rfl)⟩
  have h12 : (c = 12) ↔ c.toNat = 12 := ⟨fun h => by rw [h]; rfl, fun h => UInt8.ext (by rw [h]; rfl)⟩
  have h13 : (c = 13) ↔ c.toNat = 13 := ⟨fun h => by rw [h]; rfl, fun h => UInt8.ext (by rw [h]; rfl)⟩
  have h32 : (c = 32) ↔ c.toNat = 32 := ⟨fun h => by rw [h]; rfl, fun h => UInt8.ext (by rw [h]; rfl)⟩
  have hle : c.toNat ≤ 0xFF := by simp only [RuneSelf] at hc; omega
  simp only [RuneSelf] at hc
  simp only [IsSpace, asciiSpace, hle, if_true, beq_iff_eq, h9, h10, h11, h12, h13, h32,
    Bool.or_eq_true, Bool.decide_or]
  rw [Bool.eq_iff_iff]
  simp only [Bool.or_eq_true, beq_iff_eq, decide_eq_true_eq, h9, h10, h11, h12, h13, h32]
  omega


theorem trimLeftLoop_spec : ∀ (n : Nat) (s : GoString), s.length ≤ n →
    ∃ pre, s = pre ++ trimLeftLoop IsSpace n s ∧ SpaceRun pre ∧
      (trimLeftLoop IsSpace n s = [] ∨
        IsSpace (DecodeRuneInString (trimLeftLoop IsSpace n s)).1 = false) := by
  intro n
  induction n with
  | zero =>
    intro s hs
    have : s = [] := List.length_eq_zero.mp (by omega)
    subst this
    exact ⟨[], rfl, SpaceRun.nil, Or.inl rfl⟩
  | succ n ih =>
    intro s hs
    by_cases hnil : s = []
    · subst hnil
      exact ⟨[], by simp [trimLeftLoop], SpaceRun.nil, Or.inl (by simp [trimLeftLoop])⟩
    · by_cases hsp : IsSpace (DecodeRuneInString s).1 = true
      · have hproper : ¬ ((DecodeRuneInString s).1 = RuneError ∧ (DecodeRuneInString s).2 ≤ 1) := by
          rintro ⟨h1, -⟩
          rw [h1, IsSpace_RuneError] at hsp
          cases hsp
        obtain ⟨c, u, hs2, hlen, hc, hstable⟩ := DecodeRune_stable s hproper
        have hdc : DecodeRuneInString c = DecodeRuneInString s := by simpa using hstable []
        have hdrop : s.drop (DecodeRuneInString s).2 = u := by
          rw [← hlen, hs2, List.drop_left]
        have hstep : trimLeftLoop IsSpace (n + 1) s = trimLeftLoop IsSpace n u := by
          simp [trimLeftLoop, hnil, hsp, hdrop]
        have hu : u.length ≤ n := by
          have : 0 < c.length := List.length_pos.mpr hc
          rw [hs2, List.length_append] at hs
          omega
        obtain ⟨pre, hpre, hrun, hfirst⟩ := ih u hu
        rw [hstep]
        refine ⟨c ++ pre, ?_, ?_, hfirst⟩
        · rw [List.append_assoc, ← hpre, hs2]
        · exact SpaceRun.cons c pre hc (by rw [hdc, hlen]) (by rw [hdc]; exact hsp) hrun
      · have hstep : trimLeftLoop IsSpace (n + 1) s = s := by
          simp [trimLeftLoop, hnil, hsp]
        rw [hstep]
        exact ⟨[], rfl, SpaceRun.nil, Or.inr (by simpa using hsp)⟩

theorem scanBack_le (s : GoString) (lim : Int) : ∀ (k : Nat) (start : Int),
    scanBack s lim k start ≤ start := by
  intro k
  induction k with
  | zero => intro start; simp [scanBack]
  | succ k ih =>
    intro start
    simp only [scanBack]
    split_ifs
    · exact le_refl _
    · exact le_refl _
    · have := ih (start - 1)
      omega


/-- The index from which `DecodeLastRuneInString` decodes when the last byte is not ASCII. -/
theorem DecodeLast_unfold (t : GoString) (ht : t ≠ [])
    (hl : ¬ (t.getD (t.length - 1) 0).toNat < RuneSelf) :
    ∃ start : Nat, start < t.length ∧
      DecodeLastRuneInString t =
        if start + (DecodeRuneInString (t.drop start)).2 ≠ t.length then (RuneError, 1)
        else DecodeRuneInString (t.drop start) := by
  have hlen : t.length ≠ 0 := fun h => ht (List.length_eq_zero.mp h)
  have hsb := scanBack_le t (if (t.length : Int) - UTFMax < 0 then 0 else (t.length : Int) - UTFMax)
    UTFMax ((t.length : Int) - 2)
  generalize hsbv : scanBack t
    (if (t.length : Int) - UTFMax < 0 then 0 else (t.length : Int) - UTFMax)
    UTFMax ((t.length : Int) - 2) = sb at hsb
  refine ⟨if sb < 0 then 0 else sb.toNat, ?_, ?_⟩
  · split_ifs <;> omega
  · simp only [DecodeLastRuneInString, hlen, if_false, hl, hsbv]


theorem DecodeRune_ascii (c : UInt8) (v : GoString) (hc : c.toNat < RuneSelf) :
    DecodeRuneInString (c :: v) = (c.toNat, 1) := by
  simp [DecodeRuneInString, hc]

theorem DecodeLast_ascii (init : GoString) (c : UInt8) (hc : c.toNat < RuneSelf) :
    DecodeLastRuneInString (init ++ [c]) = (c.toNat, 1) := by
  simp [DecodeLastRuneInString, hc, List.getD_eq_getElem?_getD]

/-- What `DecodeLastRuneInString` returns on a string that is not empty: the width is that
of a group of bytes at the end, and the rune is what that group decodes to, unless the
result is the one-byte `RuneError`. -/
theorem DecodeLast_spec (t : GoString) (ht : t ≠ []) :
    ∃ init c, t = init ++ c ∧ c ≠ [] ∧ c.length = (DecodeLastRuneInString t).2 ∧
      (DecodeRuneInString c = DecodeLastRuneInString t ∨
        DecodeLastRuneInString t = (RuneError, 1)) := by
  rcases List.eq_nil_or_concat t with rfl | ⟨init, last, rfl⟩
  · exact absurd rfl ht
  · by_cases hl : last.toNat < RuneSelf
    · refine ⟨init, [last], by simp, by simp, ?_, Or.inl ?_⟩
      · rw [List.concat_eq_append, DecodeLast_ascii init last hl]; rfl
      · rw [List.concat_eq_append, DecodeLast_ascii init last hl, DecodeRune_ascii last [] hl]
    · have hl2 : ¬ ((init.concat last).getD ((init.concat last).length - 1) 0).toNat < RuneSelf := by
        simpa [List.getD_eq_getElem?_getD] using hl
      obtain ⟨start, hstart, hval⟩ := DecodeLast_unfold (init.concat last) ht hl2
      by_cases hmis : start + (DecodeRuneInString ((init.concat last).drop start)).2
          ≠ (init.concat last).length
      · rw [if_pos hmis] at hval
        refine ⟨init, [last], by simp, by simp, ?_, Or.inr hval⟩
        rw [hval]; rfl
      · rw [if_neg hmis] at hval
        refine ⟨(init.concat last).take start, (init.concat last).drop start,
          (List.take_append_drop _ _).symm, ?_, ?_, Or.inl hval.symm⟩
        · intro h
          have := congrArg List.length h
          simp only [List.length_drop, List.length_nil] at this
          omega
        · rw [hval]
          simp only [List.length_drop]
          omega


/-- A byte that is not ASCII, standing before a run of white space, decodes on its own:
no encoding of a white space rune starts with a continuation byte. -/
theorem DecodeRune_before_space (b : UInt8) (v : GoString) (hb : ¬ b.toNat < RuneSelf)
    (hv : SpaceRun v) : DecodeRuneInString (b :: v) = (RuneError, 1) := by
  by_cases h1 : b.toNat < 0xC2 ∨ 0xF4 < b.toNat
  · simp [DecodeRuneInString, hb, h1]
  · cases hv with
    | nil => simp [DecodeRuneInString, hb, h1]
    | cons c rest hc hlen hsp hrest =>
      rcases c with _ | ⟨c0, c1⟩
      · exact absurd rfl hc
      · have hc0 : c0.toNat < 0x80 ∨ 0xC2 ≤ c0.toNat := by
          by_contra hcon
          have h2 : ¬ c0.toNat < RuneSelf := by simp only [RuneSelf]; omega
          have h3 : c0.toNat < 0xC2 ∨ 0xF4 < c0.toNat := by omega
          have : DecodeRuneInString (c0 :: c1) = (RuneError, 1) := by
            simp [DecodeRuneInString, h2, h3]
          rw [this, IsSpace_RuneError] at hsp
          cases hsp
        have hbad : c0.toNat < (if b.toNat = 0xE0 then 0xA0 else if b.toNat = 0xF0 then 0x90 else 0x80) ∨
            (if b.toNat = 0xED then 0x9F else if b.toNat = 0xF4 then 0x8F else 0xBF) < c0.toNat := by
          split_ifs <;> omega
        simp [DecodeRuneInString, hb, h1, hbad]

/-- The backwards loop of `TrimRightFunc`: it stops before the last rune that is not white
space, having passed over a run of white space, or runs through a string that is all
white space. -/
theorem lastIndexLoop_spec (s : GoString) : ∀ (n i : Nat), i ≤ n → i ≤ s.length →
    SpaceRun (s.drop i) →
    (lastIndexLoop s IsSpace n i = -1 ∧ SpaceRun s) ∨
    (∃ j, 0 < j ∧ j ≤ s.length ∧ IsSpace (DecodeLastRuneInString (s.take j)).1 = false ∧
      SpaceRun (s.drop j) ∧ (DecodeLastRuneInString (s.take j)).2 ≤ j ∧
      lastIndexLoop s IsSpace n i = ((j - (DecodeLastRuneInString (s.take j)).2 : Nat) : Int)) := by
  intro n
  induction n with
  | zero =>
    intro i hi _ hrun
    have : i = 0 := by omega
    subst this
    exact Or.inl ⟨by simp [lastIndexLoop], by simpa using hrun⟩
  | succ n ih =>
    intro i hi hlen hrun
    by_cases h0 : i = 0
    · subst h0
      exact Or.inl ⟨by simp [lastIndexLoop], by simpa using hrun⟩
    · have htake : s.take i ≠ [] := by
        intro h
        have := congrArg List.length h
        simp only [List.length_take, List.length_nil] at this
        omega
      obtain ⟨init, c, hsplit, hc, hclen, hdec⟩ := DecodeLast_spec (s.take i) htake
      have hilen : init.length + c.length = i := by
        have := congrArg List.length hsplit
        simp only [List.length_take, List.length_append] at this
        omega
      have hcpos : 0 < c.length := List.length_pos.mpr hc
      by_cases hsp : IsSpace (DecodeLastRuneInString (s.take i)).1 = true
      · have hstep : lastIndexLoop s IsSpace (n + 1) i
            = lastIndexLoop s IsSpace n (i - (DecodeLastRuneInString (s.take i)).2) := by
          simp [lastIndexLoop, h0, hsp]
        rw [hstep]
        have hdc : DecodeRuneInString c = DecodeLastRuneInString (s.take i) := by
          rcases hdec with h | h
          · exact h
          · rw [h, IsSpace_RuneError] at hsp
            cases hsp
        have hdrop : s.drop (i - (DecodeLastRuneInString (s.take i)).2) = c ++ s.drop i := by
          have hs : s = init ++ (c ++ s.drop i) := by
            rw [← List.append_assoc, ← hsplit, List.take_append_drop]
          have hidx : i - (DecodeLastRuneInString (s.take i)).2 = init.length := by omega
          rw [hidx]
          conv_lhs => rw [hs]
          exact List.drop_left _ _
        apply ih (i - (DecodeLastRuneInString (s.take i)).2) (by omega) (by omega)
        rw [hdrop]
        exact SpaceRun.cons c (s.drop i) hc (by rw [hdc, hclen]) (by rw [hdc]; exact hsp) hrun
      · right
        refine ⟨i, by omega, hlen, by simpa using hsp, hrun, by omega, ?_⟩
        simp [lastIndexLoop, h0, hsp]


theorem getD_append_cons (a b : GoString) (c d : UInt8) :
    (a ++ c :: b).getD a.length d = c := by
  induction a with
  | nil => rfl
  | cons x xs ih => simpa using ih

/-- `TrimRightFunc` with `IsSpace` cuts a run of white space off the end, and what is left
is empty or ends in a rune that is not white space. -/
theorem TrimRightFunc_spec (s : GoString) :
    ∃ post, s = TrimRightFunc s IsSpace ++ post ∧ SpaceRun post ∧
      (TrimRightFunc s IsSpace = [] ∨
        IsSpace (DecodeLastRuneInString (TrimRightFunc s IsSpace)).1 = false) := by
  rcases lastIndexLoop_spec s s.length s.length (le_refl _) (le_refl _)
      (by simpa using SpaceRun.nil) with ⟨hi, hall⟩ | ⟨j, hj0, hjlen, hnsp, hrun, hsize, hi⟩
  · have hres : TrimRightFunc s IsSpace = [] := by
      simp [TrimRightFunc, hi]
    rw [hres]
    exact ⟨s, rfl, hall, Or.inl rfl⟩
  · have htake : s.take j ≠ [] := by
      intro h
      have := congrArg List.length h
      simp only [List.length_take, List.length_nil] at this
      omega
    obtain ⟨init, c, hsplit, hc, hclen, hdec⟩ := DecodeLast_spec (s.take j) htake
    have hilen : init.length + c.length = j := by
      have := congrArg List.length hsplit
      simp only [List.length_take, List.length_append] at this
      omega
    have hidx : j - (DecodeLastRuneInString (s.take j)).2 = init.length := by omega
    have hs : s = init ++ (c ++ s.drop j) := by
      rw [← List.append_assoc, ← hsplit, List.take_append_drop]
    have hdrop : s.drop init.length = c ++ s.drop j := by
      conv_lhs => rw [hs]
      exact List.drop_left _ _
    rcases c with _ | ⟨c0, c1⟩
    · exact absurd rfl hc
    · have hget : s.getD init.length 0 = c0 := by
        conv_lhs => rw [hs]
        exact getD_append_cons init _ c0 0
      have hres : TrimRightFunc s IsSpace = s.take j := by
        by_cases hc0 : c0.toNat < RuneSelf
        · have hsz : (DecodeLastRuneInString (s.take j)).2 = 1 := by
            rcases hdec with h | h
            · rw [← h, DecodeRune_ascii c0 c1 hc0]
            · rw [h]
          have hj1 : init.length + 1 = j := by omega
          simp only [TrimRightFunc, hi, hidx, Int.toNat_ofNat, hget]
          rw [if_neg (by intro h; exact absurd h.2 (by omega))]
          congr 1
        · have hwid : (DecodeRuneInString (s.drop init.length)).2
              = (DecodeLastRuneInString (s.take j)).2 := by
            rw [hdrop]
            have hone : (c0 :: c1).length = 1 → (DecodeRuneInString ((c0 :: c1) ++ s.drop j)).2
                = (DecodeLastRuneInString (s.take j)).2 := by
              intro h1
              have hc1 : c1 = [] := by
                cases c1 with
                | nil => rfl
                | cons _ _ => simp at h1
              subst hc1
              rw [List.singleton_append, DecodeRune_before_space c0 _ hc0 hrun, ← hclen]
              rfl
            rcases hdec with h | h
            · by_cases hproper : ¬ ((DecodeRuneInString (c0 :: c1)).1 = RuneError ∧
                  (DecodeRuneInString (c0 :: c1)).2 ≤ 1)
              · obtain ⟨c2, u, hcu, hc2len, -, hstable⟩ := DecodeRune_stable (c0 :: c1) hproper
                have hu : u = [] := by
                  have := congrArg List.length hcu
                  rw [List.length_append, hc2len, h, ← hclen] at this
                  exact List.length_eq_zero.mp (by omega)
                subst hu
                rw [List.append_nil] at hcu
                subst hcu
                rw [hstable, h]
              · have hle : (DecodeRuneInString (c0 :: c1)).2 ≤ 1 := by
                  by_contra hcon
                  exact hproper (fun hh => hcon hh.2)
                rw [h, ← hclen] at hle
                exact hone (by have := hclen; simp only [List.length_cons] at hle ⊢; omega)
            · exact hone (by rw [hclen, h])
          simp only [TrimRightFunc, hi, hidx, Int.toNat_ofNat, hget]
          rw [if_pos ⟨by omega, by omega⟩, hwid]
          congr 1
          omega
      rw [hres]
      exact ⟨s.drop j, (List.take_append_drop j s).symm, hrun, Or.inr hnsp⟩


theorem SpaceRun_ascii (c : UInt8) (hc : c.toNat < RuneSelf) (hsp : asciiSpace c = true) :
    SpaceRun [c] := by
  have := SpaceRun.cons [c] [] (by simp) (by rw [DecodeRune_ascii c [] hc]; rfl)
    (by rw [DecodeRune_ascii c [] hc]; simpa [asciiSpace_IsSpace c hc] using hsp) SpaceRun.nil
  simpa using this

/-- The fast path of `TrimSpace` at the end of the string: a run of white space is cut off,
and what is left is empty or ends in a rune that is not white space. -/
theorem trimSpaceRight_spec : ∀ (rev s : GoString), rev = s.reverse →
    ∃ post, s = trimSpaceRight s rev ++ post ∧ SpaceRun post ∧
      (trimSpaceRight s rev = [] ∨
        IsSpace (DecodeLastRuneInString (trimSpaceRight s rev)).1 = false) := by
  intro rev
  induction rev with
  | nil =>
    intro s hs
    have : s = [] := by simpa using hs.symm
    subst this
    exact ⟨[], by simp [trimSpaceRight], SpaceRun.nil, Or.inl (by simp [trimSpaceRight])⟩
  | cons c before ih =>
    intro s hs
    have hs2 : s = before.reverse ++ [c] := by
      have := congrArg List.reverse hs
      simpa using this.symm
    by_cases hc : RuneSelf ≤ c.toNat
    · have hstep : trimSpaceRight s (c :: before) = TrimRightFunc s IsSpace := by
        simp [trimSpaceRight, hc]
      rw [hstep]
      exact TrimRightFunc_spec s
    · have hc2 : c.toNat < RuneSelf := by omega
      by_cases hsp : asciiSpace c = true
      · have htake : s.take before.length = before.reverse := by
          rw [hs2]; simp
        have hstep : trimSpaceRight s (c :: before)
            = trimSpaceRight before.reverse before := by
          simp [trimSpaceRight, hc, hsp, htake]
        rw [hstep]
        obtain ⟨post, hpost, hrun, hlast⟩ := ih before.reverse (by simp)
        refine ⟨post ++ [c], ?_, SpaceRun_append _ _ hrun (SpaceRun_ascii c hc2 hsp), hlast⟩
        rw [← List.append_assoc, ← hpost, hs2]
      · have hstep : trimSpaceRight s (c :: before) = s := by
          simp [trimSpaceRight, hc, hsp]
        rw [hstep]
        refine ⟨[], by simp, SpaceRun.nil, Or.inr ?_⟩
        rw [hs2, DecodeLast_ascii _ c hc2, asciiSpace_IsSpace c hc2]
        simpa using hsp

/-- `TrimSpace` removes the white space around a string: the string is a run of white
space, the result, and another run of white space, and the result is empty or both begins
and ends with a rune that is not white space. -/
theorem TrimSpace_spec : ∀ (s : GoString),
    ∃ pre post, s = pre ++ TrimSpace s ++ post ∧ SpaceRun pre ∧ SpaceRun post ∧
      (TrimSpace s = [] ∨
        (IsSpace (DecodeRuneInString (TrimSpace s)).1 = false ∧
         IsSpace (DecodeLastRuneInString (TrimSpace s)).1 = false)) := by
  intro s
  induction s with
  | nil => exact ⟨[], [], rfl, SpaceRun.nil, SpaceRun.nil, Or.inl rfl⟩
  | cons c rest ih =>
    by_cases hc : RuneSelf ≤ c.toNat
    · have hstep : TrimSpace (c :: rest) = TrimFunc (c :: rest) IsSpace := by
        simp [TrimSpace, hc]
      rw [hstep]
      obtain ⟨pre, hpre, hprerun, hfirst⟩ := trimLeftLoop_spec (c :: rest).length (c :: rest)
        (le_refl _)
      obtain ⟨post, hpost, hpostrun, hlast⟩ :=
        TrimRightFunc_spec (TrimLeftFunc (c :: rest) IsSpace)
      have hleft : trimLeftLoop IsSpace (c :: rest).length (c :: rest)
          = TrimLeftFunc (c :: rest) IsSpace := rfl
      rw [hleft] at hpre hfirst
      have hres : TrimFunc (c :: rest) IsSpace
          = TrimRightFunc (TrimLeftFunc (c :: rest) IsSpace) IsSpace := rfl
      rw [hres]
      refine ⟨pre, post, ?_, hprerun, hpostrun, ?_⟩
      · rw [List.append_assoc, ← hpost]; exact hpre
      · by_cases hnil : TrimRightFunc (TrimLeftFunc (c :: rest) IsSpace) IsSpace = []
        · exact Or.inl hnil
        · right
          refine ⟨?_, hlast.resolve_left hnil⟩
          by_contra hsp
          have hsp2 : IsSpace (DecodeRuneInString
              (TrimRightFunc (TrimLeftFunc (c :: rest) IsSpace) IsSpace)).1 = true := by
            simpa using hsp
          have hproper : ¬ ((DecodeRuneInString
              (TrimRightFunc (TrimLeftFunc (c :: rest) IsSpace) IsSpace)).1 = RuneError ∧
              (DecodeRuneInString
                (TrimRightFunc (TrimLeftFunc (c :: rest) IsSpace) IsSpace)).2 ≤ 1) := by
            rintro ⟨h1, -⟩
            rw [h1, IsSpace_RuneError] at hsp2
            cases hsp2
          obtain ⟨c2, u, hcu, -, -, hstable⟩ := DecodeRune_stable _ hproper
          have hwhole : DecodeRuneInString (TrimLeftFunc (c :: rest) IsSpace)
              = DecodeRuneInString (TrimRightFunc (TrimLeftFunc (c :: rest) IsSpace) IsSpace) := by
            conv_lhs => rw [hpost, hcu, List.append_assoc]
            exact hstable (u ++ post)
          have hne : TrimLeftFunc (c :: rest) IsSpace ≠ [] := by
            intro h
            have hlen := congrArg List.length hpost
            rw [List.length_append] at hlen
            have h0 : (TrimLeftFunc (c :: rest) IsSpace).length = 0 := by rw [h]; rfl
            exact hnil (List.length_eq_zero.mp (by omega))
          have := hfirst.resolve_left hne
          rw [hwhole, hsp2] at this
          cases this
    · have hc2 : c.toNat < RuneSelf := by omega
      by_cases hsp : asciiSpace c = true
      · have hstep : TrimSpace (c :: rest) = TrimSpace rest := by
          simp [TrimSpace, hc, hsp]
        rw [hstep]
        obtain ⟨pre, post, hsplit, hprerun, hpostrun, hends⟩ := ih
        refine ⟨[c] ++ pre, post, ?_, SpaceRun_append _ _ (SpaceRun_ascii c hc2 hsp) hprerun,
          hpostrun, hends⟩
        simp only [List.singleton_append, List.cons_append, List.cons.injEq, true_and]
        exact hsplit
      · have hstep : TrimSpace (c :: rest)
            = trimSpaceRight (c :: rest) (c :: rest).reverse := by
          simp [TrimSpace, hc, hsp]
        rw [hstep]
        obtain ⟨post, hpost, hpostrun, hlast⟩ :=
          trimSpaceRight_spec (c :: rest).reverse (c :: rest) rfl
        refine ⟨[], post, by simpa using hpost, SpaceRun.nil, hpostrun, ?_⟩
        by_cases hnil : trimSpaceRight (c :: rest) (c :: rest).reverse = []
        · exact Or.inl hnil
        · right
          refine ⟨?_, hlast.resolve_left hnil⟩
          rcases hres : trimSpaceRight (c :: rest) (c :: rest).reverse with _ | ⟨r0, r1⟩
          · exact absurd hres hnil
          · rw [hres] at hpost
            have hr0 : r0 = c := by
              simp only [List.cons_append, List.cons.injEq] at hpost
              exact hpost.1.symm
            subst hr0
            rw [DecodeRune_ascii r0 r1 hc2, asciiSpace_IsSpace r0 hc2]
            simpa using hsp

/-! ## Lists of bytes and their first line -/

theorem firstLine_append_afterFirstLine (d : UInt8) (s : GoString) :
    firstLine d s ++ afterFirstLine d s = s := by
  induction s with
  | nil => rfl
  | cons c cs ih =>
    by_cases h : c = d
    · simp [firstLine, afterFirstLine, h]
    · simp [firstLine, afterFirstLine, h, ih]

theorem firstLine_eq_nil_iff (d : UInt8) (s : GoString) : firstLine d s = [] ↔ s = [] := by
  cases s with
  | nil => simp [firstLine]
  | cons c cs =>
    by_cases h : c = d <;> simp [firstLine, h]

/-- In a first line the delimiter is the last byte or does not occur. -/
theorem firstLine_delim_last (d : UInt8) : ∀ (s a b : GoString),
    firstLine d s = a ++ d :: b → b = [] := by
  intro s
  induction s with
  | nil => intro a b h; simp [firstLine] at h
  | cons c cs ih =>
    intro a b h
    by_cases hc : c = d
    · simp only [firstLine, hc, if_true] at h
      rcases a with _ | ⟨x, a1⟩
      · simpa using h.symm
      · simp at h
    · simp only [firstLine, hc, if_false] at h
      rcases a with _ | ⟨x, a1⟩
      · simp only [List.nil_append, List.cons.injEq] at h
        exact absurd h.1 hc
      · simp only [List.cons_append, List.cons.injEq] at h
        exact ih a1 b h.2

theorem IndexByte_eq_none_iff (s : GoString) (d : UInt8) : IndexByte s d = none ↔ d ∉ s := by
  induction s with
  | nil => simp [IndexByte]
  | cons c cs ih =>
    by_cases h : c = d
    · simp [IndexByte, h]
    · have h2 : ¬ d = c := fun e => h e.symm
      simp [IndexByte, h, h2, ih]

theorem IndexByte_some_split (s t : GoString) (d : UInt8) (i : Nat) (h : IndexByte s d = some i) :
    s.take (i + 1) = firstLine d (s ++ t) ∧ s.drop (i + 1) ++ t = afterFirstLine d (s ++ t) := by
  induction s generalizing i with
  | nil => simp [IndexByte] at h
  | cons c cs ih =>
    by_cases hc : c = d
    · simp [IndexByte, hc] at h
      subst h
      simp [firstLine, afterFirstLine, hc]
    · simp only [IndexByte, hc, if_false, Option.map_eq_some'] at h
      obtain ⟨j, hj, rfl⟩ := h
      have := ih j hj
      simp [firstLine, afterFirstLine, hc, this.1, this.2]

theorem firstLine_append_of_not_mem (d : UInt8) (s t : GoString) (h : d ∉ s) :
    firstLine d (s ++ t) = s ++ firstLine d t := by
  induction s with
  | nil => rfl
  | cons c cs ih =>
    have hc : ¬ c = d := fun e => h (by simp [e])
    have hcs : d ∉ cs := fun e => h (by simp [e])
    simp [firstLine, hc, ih hcs]

theorem afterFirstLine_append_of_not_mem (d : UInt8) (s t : GoString) (h : d ∉ s) :
    afterFirstLine d (s ++ t) = afterFirstLine d t := by
  induction s with
  | nil => rfl
  | cons c cs ih =>
    have hc : ¬ c = d := fun e => h (by simp [e])
    have hcs : d ∉ cs := fun e => h (by simp [e])
    simp [afterFirstLine, hc, ih hcs]

theorem firstLine_of_not_mem (d : UInt8) (s : GoString) (h : d ∉ s) : firstLine d s = s := by
  have := firstLine_append_of_not_mem d s [] h
  simpa [firstLine] using this

theorem afterFirstLine_of_not_mem (d : UInt8) (s : GoString) (h : d ∉ s) :
    afterFirstLine d s = [] := by
  have := afterFirstLine_append_of_not_mem d s [] h
  simpa [afterFirstLine] using this


/-! ## The buffered reader -/

theorem fillLoop_succ_spec (i : Nat) (b : Reader) (herr : b.err = none)
    (hroom : b.buf.length < defaultBufSize) :
    (b.rd.data = [] ∧ b.fillLoop (i + 1) = { b with err := some .EOF }) ∨
    (∃ p rest, p ≠ [] ∧ b.rd.data = p ++ rest ∧
      b.fillLoop (i + 1) = ⟨b.buf ++ p, ⟨rest, b.rd.ready⟩, none⟩ ∧
      p = b.rd.data.take (min (defaultBufSize - b.buf.length) (max 1 (b.rd.ready b.rd.data)))) := by
  obtain ⟨buf, ⟨data, ready⟩, err⟩ := b
  simp only at herr hroom
  subst herr
  have hn : defaultBufSize - buf.length ≠ 0 := by omega
  by_cases hd : data = []
  · left
    subst hd
    simp [Reader.fillLoop, File.Read, hn]
  · right
    have hk : min (defaultBufSize - buf.length) (max 1 (ready data)) ≠ 0 := by
      simp only [ne_eq, Nat.min_eq_zero_iff, Nat.max_eq_zero_iff]; omega
    have hp : List.take (min (defaultBufSize - buf.length) (max 1 (ready data))) data ≠ [] := by
      simp [List.take_eq_nil_iff, hd, hk]
    refine ⟨_, _, hp, (List.take_append_drop _ data).symm, ?_, rfl⟩
    have hpos : 0 < (List.take (min (defaultBufSize - buf.length) (max 1 (ready data))) data).length :=
      List.length_pos.mpr hp
    simp only [Reader.fillLoop, File.Read, hn, hd, if_false, hpos, if_true]

/-- What `fill` does to a reader with no kept error and room in its buffer: at end of file
it keeps `io.EOF`; otherwise it moves a non-empty run of bytes from the file to the buffer,
as many as are ready and fit. -/
theorem fill_spec (b : Reader) (herr : b.err = none) (hroom : b.buf.length < defaultBufSize) :
    (b.rd.data = [] ∧ b.fill = { b with err := some .EOF }) ∨
    (∃ p rest, p ≠ [] ∧ b.rd.data = p ++ rest ∧
      b.fill = ⟨b.buf ++ p, ⟨rest, b.rd.ready⟩, none⟩ ∧
      p = b.rd.data.take (min (defaultBufSize - b.buf.length) (max 1 (b.rd.ready b.rd.data)))) :=
  fillLoop_succ_spec 99 b herr hroom


/-- The outcome of the `ReadSlice` loop on a reader that keeps no error, given enough
steps: a fragment taken off the front of the stream (buffer, then file), which is the first
line when the delimiter was found, everything when the file ended, and a full buffer
without delimiter otherwise. -/
theorem ReadSliceLoop_spec (d : UInt8) : ∀ (fuel : Nat) (b : Reader), b.err = none →
    b.rd.data.length + 2 ≤ fuel →
    ∃ frag e b1, b.ReadSliceLoop d fuel = some (frag, e, b1) ∧ b1.err = none ∧
      b1.rd.ready = b.rd.ready ∧ frag ++ (b1.buf ++ b1.rd.data) = b.buf ++ b.rd.data ∧
      ((e = none ∧ frag = firstLine d (b.buf ++ b.rd.data) ∧ d ∈ b.buf ++ b.rd.data) ∨
       (e = some .EOF ∧ d ∉ frag ∧ b1.buf = [] ∧ b1.rd.data = []) ∨
       (e = some .ErrBufferFull ∧ d ∉ frag ∧ frag ≠ [] ∧ b1.buf = [])) := by
  intro fuel
  induction fuel with
  | zero => intro b _ h; omega
  | succ fuel ih =>
    intro b herr hfuel
    obtain ⟨buf, ⟨data, ready⟩, err⟩ := b
    simp only at herr hfuel
    subst herr
    cases hI : IndexByte buf d with
    | some i =>
      have hs := IndexByte_some_split buf data d i hI
      have hmem : d ∈ buf := by
        by_contra hn
        rw [(IndexByte_eq_none_iff buf d).mpr hn] at hI
        cases hI
      refine ⟨buf.take (i + 1), none, ⟨buf.drop (i + 1), ⟨data, ready⟩, none⟩, ?_, rfl, rfl, ?_, ?_⟩
      · simp [Reader.ReadSliceLoop, hI]
      · simp [← List.append_assoc]
      · left
        exact ⟨rfl, hs.1, List.mem_append_left _ hmem⟩
    | none =>
      have hnot : d ∉ buf := (IndexByte_eq_none_iff buf d).mp hI
      by_cases hfull : buf.length ≥ defaultBufSize
      · refine ⟨buf, some .ErrBufferFull, ⟨[], ⟨data, ready⟩, none⟩, ?_, rfl, rfl, by simp, ?_⟩
        · simp [Reader.ReadSliceLoop, hI, hfull]
        · right; right
          refine ⟨rfl, hnot, ?_, rfl⟩
          intro h
          rw [h] at hfull
          simp [defaultBufSize] at hfull
      · have hroom : buf.length < defaultBufSize := by omega
        have hstep : Reader.ReadSliceLoop d (fuel + 1) ⟨buf, ⟨data, ready⟩, none⟩
            = Reader.ReadSliceLoop d fuel (Reader.fill ⟨buf, ⟨data, ready⟩, none⟩) := by
          simp [Reader.ReadSliceLoop, hI, hfull]
        rw [hstep]
        rcases fill_spec ⟨buf, ⟨data, ready⟩, none⟩ rfl hroom with ⟨hd, hf⟩ | ⟨p, rest, hp, hd, hf, -⟩
        · simp only at hd
          subst hd
          rw [hf]
          obtain ⟨fuel1, rfl⟩ : ∃ n, fuel = n + 1 := ⟨fuel - 1, by simp at hfuel; omega⟩
          refine ⟨buf, some .EOF, ⟨[], ⟨[], ready⟩, none⟩, ?_, rfl, rfl, by simp, ?_⟩
          · simp [Reader.ReadSliceLoop, hI]
          · right; left
            exact ⟨rfl, hnot, rfl, rfl⟩
        · simp only at hd
          subst hd
          rw [hf]
          have hplen : 0 < p.length := List.length_pos.mpr hp
          have hfuel1 : rest.length + 2 ≤ fuel := by
            simp only [List.length_append] at hfuel; omega
          obtain ⟨frag, e, b1, hrun, herr1, hready, happ, hcase⟩ :=
            ih ⟨buf ++ p, ⟨rest, ready⟩, none⟩ rfl hfuel1
          refine ⟨frag, e, b1, hrun, herr1, hready, ?_, ?_⟩
          · simpa [List.append_assoc] using happ
          · simpa [List.append_assoc] using hcase


/-- The outcome of the fragment loop of `ReadString` on a reader that keeps no error, given
enough steps: the first line of the stream (buffer, then file) is returned after the
fragments collected so far, the rest of the stream stays with the reader, and the error is
`io.EOF` exactly when the stream holds no delimiter. -/
theorem collectLoop_spec (d : UInt8) : ∀ (fuel : Nat) (b : Reader) (full : GoString),
    b.err = none → b.buf.length + b.rd.data.length + 1 ≤ fuel →
    ∃ b1, b.collectLoop d fuel full
        = some (full ++ firstLine d (b.buf ++ b.rd.data),
            if d ∈ b.buf ++ b.rd.data then none else some .EOF, b1) ∧
      b1.err = none ∧ b1.rd.ready = b.rd.ready ∧
      b1.buf ++ b1.rd.data = afterFirstLine d (b.buf ++ b.rd.data) := by
  intro fuel
  induction fuel with
  | zero => intro b _ _ h; omega
  | succ fuel ih =>
    intro b full herr hfuel
    obtain ⟨frag, e, b1, hrun, herr1, hready, happ, hcase⟩ :=
      ReadSliceLoop_spec d (b.rd.data.length + 2) b herr (le_refl _)
    have hsplit := firstLine_append_afterFirstLine d (b.buf ++ b.rd.data)
    rcases hcase with ⟨he, hfrag, hmem⟩ | ⟨he, hnot, hbuf, hdata⟩ | ⟨he, hnot, hne, hbuf⟩
    · subst he
      refine ⟨b1, ?_, herr1, hready, ?_⟩
      · simp [Reader.collectLoop, Reader.ReadSlice, hrun, hfrag, hmem]
      · rw [hfrag] at happ
        exact List.append_cancel_left (happ.trans hsplit.symm)
    · subst he
      have hstream : b.buf ++ b.rd.data = frag := by simpa [hbuf, hdata] using happ.symm
      refine ⟨b1, ?_, herr1, hready, ?_⟩
      · simp [Reader.collectLoop, Reader.ReadSlice, hrun, hstream, hnot,
          firstLine_of_not_mem d frag hnot]
      · rw [hstream, afterFirstLine_of_not_mem d frag hnot, hbuf, hdata]; rfl
    · subst he
      have hlen : (b1.buf ++ b1.rd.data).length < (b.buf ++ b.rd.data).length := by
        rw [← happ]
        have : 0 < frag.length := List.length_pos.mpr hne
        simp only [List.length_append]; omega
      have hfuel1 : b1.buf.length + b1.rd.data.length + 1 ≤ fuel := by
        simp only [List.length_append] at hlen; omega
      obtain ⟨b2, hrun2, herr2, hready2, hrest2⟩ := ih b1 (full ++ frag) herr1 hfuel1
      refine ⟨b2, ?_, herr2, hready2.trans hready, ?_⟩
      · have hstep : b.collectLoop d (fuel + 1) full = b1.collectLoop d fuel (full ++ frag) := by
          simp [Reader.collectLoop, Reader.ReadSlice, hrun]
        rw [hstep, hrun2, ← happ, firstLine_append_of_not_mem d frag _ hnot]
        simp [hnot, List.append_assoc]
      · rw [hrest2, ← happ, afterFirstLine_append_of_not_mem d frag _ hnot]

/-- `ReadString` on a reader that keeps no error returns the first line of the stream
(buffer, then file) and leaves the rest of the stream with the reader. -/
theorem ReadString_spec (d : UInt8) (b : Reader) (herr : b.err = none) :
    ∃ b1, b.ReadString d
        = some (firstLine d (b.buf ++ b.rd.data),
            if d ∈ b.buf ++ b.rd.data then none else some .EOF, b1) ∧
      b1.err = none ∧ b1.rd.ready = b.rd.ready ∧
      b1.buf ++ b1.rd.data = afterFirstLine d (b.buf ++ b.rd.data) := by
  simpa [Reader.ReadString] using
    collectLoop_spec d (b.buf.length + b.rd.data.length + 1) b [] herr (le_refl _)


/-! ## The loop of StringPrompt -/

theorem repeated_succ_left (label : GoString) (n : Nat) :
    repeated label (n + 1) = label ++ repeated label n := by
  induction n with
  | zero => simp [repeated]
  | succ n ih =>
    calc repeated label (n + 1 + 1) = repeated label (n + 1) ++ label := rfl
      _ = label ++ (repeated label n ++ label) := by rw [ih, List.append_assoc]
      _ = label ++ repeated label (n + 1) := rfl

/-- One pass through the loop body from a state whose reader keeps no error: the label goes
to the error stream, the first line of the reader's stream is read into `s`, and the loop
is left exactly when that line is not the empty string. -/
theorem attempt_spec (label : GoString) (st : Loop) (herr : st.r.err = none) :
    ∃ r1, attempt label st
        = some ⟨if firstLine 10 (st.r.buf ++ st.r.rd.data) ≠ [] then .Done else .Waiting,
            firstLine 10 (st.r.buf ++ st.r.rd.data), r1, st.stderr ++ label,
            st.reads ++ [firstLine 10 (st.r.buf ++ st.r.rd.data)]⟩ ∧
      r1.err = none ∧ r1.rd.ready = st.r.rd.ready ∧
      r1.buf ++ r1.rd.data = afterFirstLine 10 (st.r.buf ++ st.r.rd.data) := by
  obtain ⟨r1, hread, herr1, hready, hrest⟩ := ReadString_spec 10 st.r herr
  exact ⟨r1, by simp [attempt, hread, Fprint], herr1, hready, hrest⟩

theorem loop_of_done (label : GoString) (n : Nat) (st : Loop) (h : st.phase = .Done) :
    loop label n st = some st := by
  cases n with
  | zero => rfl
  | succ n => simp [loop, h]

/-- On input that is not empty the loop is left after the first pass, with the first raw
line in `s`. -/
theorem loop_of_input (label : GoString) (w : World) (fuel : Nat) (h : w.stdin.data ≠ []) :
    ∃ r1, loop label (fuel + 1) (enter w)
        = some ⟨.Done, firstLine 10 w.stdin.data, r1, w.stderr ++ label,
            [firstLine 10 w.stdin.data]⟩ ∧
      r1.err = none ∧ r1.rd.ready = w.stdin.ready ∧
      r1.buf ++ r1.rd.data = afterFirstLine 10 w.stdin.data := by
  obtain ⟨r1, hrun, herr1, hready, hrest⟩ := attempt_spec label (enter w) rfl
  have hne : firstLine 10 w.stdin.data ≠ [] := fun e => h ((firstLine_eq_nil_iff 10 _).mp e)
  simp only [enter, NewReader, List.nil_append, hne, ne_eq, not_false_eq_true, if_true] at hrun hready hrest
  refine ⟨r1, ?_, herr1, hready, hrest⟩
  have hstep : loop label (fuel + 1) (enter w) = (attempt label (enter w)).bind (loop label fuel) := rfl
  rw [hstep]
  simp only [enter, NewReader]
  rw [hrun]
  exact loop_of_done label fuel _ rfl

/-- On exhausted input every pass leaves the loop where it was, but for the label on the
error stream and one more empty read on record. -/
theorem loop_of_no_input (label : GoString) (ready : GoString → Nat) (n : Nat) :
    ∀ (err : GoString) (reads : List GoString),
    loop label n ⟨.Waiting, [], ⟨[], ⟨[], ready⟩, none⟩, err, reads⟩
      = some ⟨.Waiting, [], ⟨[], ⟨[], ready⟩, none⟩, err ++ repeated label n,
          reads ++ List.replicate n []⟩ := by
  induction n with
  | zero => intro err reads; simp [loop, repeated]
  | succ n ih =>
    intro err reads
    obtain ⟨r1, hrun, herr1, hready, hrest⟩ :=
      attempt_spec label ⟨.Waiting, [], ⟨[], ⟨[], ready⟩, none⟩, err, reads⟩ rfl
    obtain ⟨buf1, ⟨data1, ready1⟩, err1⟩ := r1
    simp only [List.nil_append, firstLine, afterFirstLine, List.append_eq_nil] at hrun herr1 hready hrest
    obtain ⟨rfl, rfl⟩ := hrest
    subst herr1 hready
    have hstep : loop label (n + 1) ⟨.Waiting, [], ⟨[], ⟨[], ready1⟩, none⟩, err, reads⟩
        = (attempt label ⟨.Waiting, [], ⟨[], ⟨[], ready1⟩, none⟩, err, reads⟩).bind (loop label n) := rfl
    rw [hstep, hrun]
    simp only [ne_eq, not_true_eq_false, if_false, Option.some_bind]
    rw [ih, repeated_succ_left]
    simp [List.replicate_succ, List.append_assoc]


/-- The three shapes a run of the loop can have: not started; starved on exhausted input;
left after the first pass on any other input. -/
theorem loop_shape (label : GoString) (w : World) (n : Nat) :
    ∃ st, loop label n (enter w) = some st ∧ st.r.err = none ∧
      st.r.rd.ready = w.stdin.ready ∧
      ((n = 0 ∧ st = enter w) ∨
       (w.stdin.data = [] ∧ st.phase = .Waiting ∧ st.s = [] ∧ st.r.buf = [] ∧
          st.r.rd.data = [] ∧ st.stderr = w.stderr ++ repeated label n ∧
          st.reads = List.replicate n []) ∨
       (w.stdin.data ≠ [] ∧ st.phase = .Done ∧ st.s = firstLine 10 w.stdin.data ∧
          st.r.buf ++ st.r.rd.data = afterFirstLine 10 w.stdin.data ∧
          st.stderr = w.stderr ++ label ∧ st.reads = [firstLine 10 w.stdin.data])) := by
  cases n with
  | zero => exact ⟨enter w, rfl, rfl, rfl, Or.inl ⟨rfl, rfl⟩⟩
  | succ n =>
    by_cases hd : w.stdin.data = []
    · obtain ⟨⟨data, ready⟩, out, err⟩ := w
      simp only at hd
      subst hd
      exact ⟨_, loop_of_no_input label ready (n + 1) err [], rfl, rfl,
        Or.inr (Or.inl ⟨rfl, rfl, rfl, rfl, rfl, rfl, by simp⟩)⟩
    · obtain ⟨r1, hrun, herr1, hready, hrest⟩ := loop_of_input label w n hd
      exact ⟨_, hrun, herr1, hready, Or.inr (Or.inr ⟨hd, rfl, rfl, hrest, rfl, rfl⟩)⟩

theorem iterate_afterFirstLine_nil (d : UInt8) (n : Nat) :
    (afterFirstLine d)^[n] [] = [] := by
  induction n with
  | zero => rfl
  | succ n ih => simpa [Function.iterate_succ, afterFirstLine] using ih

/-- What `StringPrompt` returns on input that is not empty, given one pass or more. -/
theorem StringPrompt_of_input (label : GoString) (w : World) (fuel : Nat)
    (h : w.stdin.data ≠ []) :
    ∃ r1 : Reader, StringPrompt label (fuel + 1) w
        = some (TrimSpace (firstLine 10 w.stdin.data),
            { w with stdin := r1.rd, stderr := w.stderr ++ label }) ∧
      r1.buf ++ r1.rd.data = afterFirstLine 10 w.stdin.data := by
  obtain ⟨r1, hrun, -, -, hrest⟩ := loop_of_input label w fuel h
  exact ⟨r1, by simp [StringPrompt, hrun], hrest⟩

theorem TrimSpace_firstLine_ne_nil (data : GoString) (h : TrimSpace (firstLine 10 data) ≠ []) :
    data ≠ [] := by
  rintro rfl
  exact h rfl

/-! ## Reading ahead -/


theorem delimOnlyLast_take_firstLine (d : UInt8) (s : GoString) (k : Nat) :
    delimOnlyLast d ((firstLine d s).take k) := by
  induction s generalizing k with
  | nil => intro i h; simp [firstLine, IndexByte] at h
  | cons c cs ih =>
    intro i h
    cases k with
    | zero => simp [IndexByte] at h
    | succ k =>
      by_cases hc : c = d
      · simp [firstLine, hc, IndexByte] at h ⊢
        omega
      · simp only [firstLine, hc, if_false, List.take_succ_cons, IndexByte,
          Option.map_eq_some'] at h
        obtain ⟨j, hj, rfl⟩ := h
        have := ih k j hj
        simp [firstLine, hc, this]

theorem delimOnlyLast_append (d : UInt8) (s p : GoString) (hs : d ∉ s)
    (hp : delimOnlyLast d p) : delimOnlyLast d (s ++ p) := by
  induction s with
  | nil => simpa using hp
  | cons c cs ih =>
    have hc : ¬ c = d := fun e => hs (by simp [e])
    have hcs : d ∉ cs := fun e => hs (by simp [e])
    intro i h
    simp only [List.cons_append, IndexByte, hc, if_false, Option.map_eq_some'] at h
    obtain ⟨j, hj, rfl⟩ := h
    have := ih hcs j hj
    simp [this]

theorem take_eq_take_firstLine (d : UInt8) (s : GoString) (k : Nat)
    (hk : k ≤ (firstLine d s).length) : s.take k = (firstLine d s).take k := by
  induction s generalizing k with
  | nil => simp [firstLine]
  | cons c cs ih =>
    cases k with
    | zero => simp
    | succ k =>
      by_cases hc : c = d
      · simp [firstLine, hc] at hk ⊢
        subst hk
        simp
      · simp only [firstLine, hc, if_false, List.length_cons, Nat.add_le_add_iff_right] at hk
        simp [firstLine, hc, ih k hk]

/-- On a terminal in line mode `ReadSlice` never leaves bytes in the buffer: the file hands
over at most a line at a time, so a delimiter is the last byte buffered. -/
theorem ReadSliceLoop_terminal : ∀ (fuel : Nat) (b : Reader),
    b.rd.ready = (fun pending => (firstLine 10 pending).length) → delimOnlyLast 10 b.buf →
    ∀ frag e b1, b.ReadSliceLoop 10 fuel = some (frag, e, b1) →
      b1.buf = [] ∧ b1.rd.ready = (fun pending => (firstLine 10 pending).length) := by
  intro fuel
  induction fuel with
  | zero => intro b _ _ frag e b1 h; simp [Reader.ReadSliceLoop] at h
  | succ fuel ih =>
    intro b hready hlast frag e b1 hrun
    obtain ⟨buf, ⟨data, ready⟩, err⟩ := b
    simp only at hready hlast
    subst hready
    cases hI : IndexByte buf 10 with
    | some i =>
      have hlen := hlast i hI
      simp only [Reader.ReadSliceLoop, hI, Option.some.injEq, Prod.mk.injEq] at hrun
      obtain ⟨-, -, rfl⟩ := hrun
      simp [hlen]
    | none =>
      have hnot : (10 : UInt8) ∉ buf := (IndexByte_eq_none_iff buf 10).mp hI
      cases err with
      | some e0 =>
        simp only [Reader.ReadSliceLoop, hI, Option.some.injEq, Prod.mk.injEq] at hrun
        obtain ⟨-, -, rfl⟩ := hrun
        simp
      | none =>
        by_cases hfull : buf.length ≥ defaultBufSize
        · simp only [Reader.ReadSliceLoop, hI, hfull, if_true, Option.some.injEq,
            Prod.mk.injEq] at hrun
          obtain ⟨-, -, rfl⟩ := hrun
          simp
        · have hroom : buf.length < defaultBufSize := by omega
          simp only [Reader.ReadSliceLoop, hI, hfull, if_false] at hrun
          rcases fill_spec ⟨buf, ⟨data, _⟩, none⟩ rfl hroom with
            ⟨hd, hf⟩ | ⟨p, rest, hp, hd, hf, hpk⟩
          · rw [hf] at hrun
            exact ih _ rfl hlast frag e b1 hrun
          · rw [hf] at hrun
            refine ih _ rfl ?_ frag e b1 hrun
            apply delimOnlyLast_append 10 buf p hnot
            simp only at hpk hd
            have hne : data ≠ [] := by
              rintro rfl
              simp at hd
              exact hp hd.1
            have hpos : 0 < (firstLine 10 data).length :=
              List.length_pos.mpr (fun e => hne ((firstLine_eq_nil_iff 10 data).mp e))
            rw [hpk, take_eq_take_firstLine 10 data _ (by
              rw [max_eq_right hpos]; exact min_le_right _ _)]
            exact delimOnlyLast_take_firstLine 10 data _

theorem collectLoop_terminal : ∀ (fuel : Nat) (b : Reader) (full : GoString),
    b.rd.ready = (fun pending => (firstLine 10 pending).length) → delimOnlyLast 10 b.buf →
    ∀ res e b1, b.collectLoop 10 fuel full = some (res, e, b1) → b1.buf = [] := by
  intro fuel
  induction fuel with
  | zero => intro b full _ _ res e b1 h; simp [Reader.collectLoop] at h
  | succ fuel ih =>
    intro b full hready hlast res e b1 hrun
    unfold Reader.collectLoop at hrun
    cases hs : b.ReadSlice 10 with
    | none => simp [hs] at hrun
    | some r =>
      obtain ⟨frag, e0, b0⟩ := r
      obtain ⟨hbuf, hready0⟩ := ReadSliceLoop_terminal _ b hready hlast frag e0 b0 hs
      cases e0 with
      | none =>
        simp only [hs, Option.some.injEq, Prod.mk.injEq] at hrun
        obtain ⟨-, -, rfl⟩ := hrun
        exact hbuf
      | some e1 =>
        cases e1 with
        | ErrBufferFull =>
          simp only [hs] at hrun
          refine ih b0 _ hready0 ?_ res e b1 hrun
          rw [hbuf]
          intro i h
          simp [IndexByte] at h
        | EOF =>
          simp only [hs, Option.some.injEq, Prod.mk.injEq] at hrun
          obtain ⟨-, -, rfl⟩ := hrun
          exact hbuf
        | ErrNoProgress =>
          simp only [hs, Option.some.injEq, Prod.mk.injEq] at hrun
          obtain ⟨-, -, rfl⟩ := hrun
          exact hbuf


/-- Where the reader of a finished loop comes from: it is the reader that the `ReadString`
of the first pass left behind, and `s` is what that call returned. -/
theorem loop_done_reader (label : GoString) (w : World) (n : Nat) (st : Loop)
    (h : loop label n (enter w) = some st) (hdone : st.phase = .Done) :
    ∃ e, (NewReader w.stdin).ReadString 10 = some (st.s, e, st.r) := by
  cases n with
  | zero =>
    simp only [loop, Option.some.injEq] at h
    subst h
    simp [enter] at hdone
  | succ n =>
    have hstep : loop label (n + 1) (enter w) = (attempt label (enter w)).bind (loop label n) := rfl
    rw [hstep] at h
    cases hr : (NewReader w.stdin).ReadString 10 with
    | none => simp [attempt, enter, hr] at h
    | some p =>
      obtain ⟨s, e, r⟩ := p
      by_cases hs : s = []
      · exfalso
        obtain ⟨r1, hspec, -⟩ := ReadString_spec 10 (NewReader w.stdin) rfl
        rw [hr, Option.some.injEq, Prod.mk.injEq] at hspec
        have hd : w.stdin.data = [] := by
          have := hspec.1
          rw [hs] at this
          simpa [NewReader] using (firstLine_eq_nil_iff 10 _).mp this.symm
        obtain ⟨st0, hrun, -, -, hshape⟩ := loop_shape label w (n + 1)
        rw [hstep, h, Option.some.injEq] at hrun
        subst hrun
        rcases hshape with ⟨h0, -⟩ | ⟨-, hw, -⟩ | ⟨hne, -⟩
        · omega
        · rw [hw] at hdone; cases hdone
        · exact hne hd
      · simp only [attempt, enter, hr, hs, ne_eq, not_false_eq_true, if_true,
          Option.some_bind] at h
        rw [loop_of_done label n _ rfl, Option.some.injEq] at h
        subst h
        exact ⟨e, rfl⟩

theorem ReadSliceLoop_at_end (d : UInt8) : ∀ (fuel : Nat) (b : Reader), b.rd.data = [] →
    ∀ frag e b1, b.ReadSliceLoop d fuel = some (frag, e, b1) → b1.rd.data = [] := by
  intro fuel
  induction fuel with
  | zero => intro b _ frag e b1 h; simp [Reader.ReadSliceLoop] at h
  | succ fuel ih =>
    intro b hdata frag e b1 hrun
    obtain ⟨buf, ⟨data, ready⟩, err⟩ := b
    simp only at hdata
    subst hdata
    cases hI : IndexByte buf d with
    | some i =>
      simp only [Reader.ReadSliceLoop, hI, Option.some.injEq, Prod.mk.injEq] at hrun
      obtain ⟨-, -, rfl⟩ := hrun
      rfl
    | none =>
      cases err with
      | some e0 =>
        simp only [Reader.ReadSliceLoop, hI, Option.some.injEq, Prod.mk.injEq] at hrun
        obtain ⟨-, -, rfl⟩ := hrun
        rfl
      | none =>
        by_cases hfull : buf.length ≥ defaultBufSize
        · simp only [Reader.ReadSliceLoop, hI, hfull, if_true, Option.some.injEq,
            Prod.mk.injEq] at hrun
          obtain ⟨-, -, rfl⟩ := hrun
          rfl
        · have hroom : buf.length < defaultBufSize := by omega
          simp only [Reader.ReadSliceLoop, hI, hfull, if_false] at hrun
          rcases fill_spec ⟨buf, ⟨[], ready⟩, none⟩ rfl hroom with
            ⟨-, hf⟩ | ⟨p, rest, hp, hd, -, -⟩
          · rw [hf] at hrun
            exact ih _ rfl frag e b1 hrun
          · simp at hd
            exact absurd hd.1 hp

theorem collectLoop_at_end (d : UInt8) : ∀ (fuel : Nat) (b : Reader) (full : GoString),
    b.rd.data = [] →
    ∀ res e b1, b.collectLoop d fuel full = some (res, e, b1) → b1.rd.data = [] := by
  intro fuel
  induction fuel with
  | zero => intro b full _ res e b1 h; simp [Reader.collectLoop] at h
  | succ fuel ih =>
    intro b full hdata res e b1 hrun
    unfold Reader.collectLoop at hrun
    cases hs : b.ReadSlice d with
    | none => simp [hs] at hrun
    | some r =>
      obtain ⟨frag, e0, b0⟩ := r
      have hdata0 := ReadSliceLoop_at_end d _ b hdata frag e0 b0 hs
      cases e0 with
      | none =>
        simp only [hs, Option.some.injEq, Prod.mk.injEq] at hrun
        obtain ⟨-, -, rfl⟩ := hrun
        exact hdata0
      | some e1 =>
        cases e1 with
        | ErrBufferFull =>
          simp only [hs] at hrun
          exact ih b0 _ hdata0 res e b1 hrun
        | EOF =>
          simp only [hs, Option.some.injEq, Prod.mk.injEq] at hrun
          obtain ⟨-, -, rfl⟩ := hrun
          exact hdata0
        | ErrNoProgress =>
          simp only [hs, Option.some.injEq, Prod.mk.injEq] at hrun
          obtain ⟨-, -, rfl⟩ := hrun
          exact hdata0

/-- A fresh reader over a regular file that fits its buffer reads the whole file ahead in
its first `ReadString`. -/
theorem ReadString_regularFile_drains (d : UInt8) (data : GoString)
    (hlen : data.length ≤ defaultBufSize) :
    ∀ res e b1, (NewReader (regularFile data)).ReadString d = some (res, e, b1) →
      b1.rd.data = [] := by
  intro res e b1 hrun
  by_cases hd : data = []
  · subst hd
    exact collectLoop_at_end d _ _ [] rfl res e b1 hrun
  · have hpos : 0 < data.length := List.length_pos.mpr hd
    have hroom : (NewReader (regularFile data)).buf.length < defaultBufSize := by
      simp [NewReader, defaultBufSize]
    have hfill : (NewReader (regularFile data)).fill = ⟨data, ⟨[], List.length⟩, none⟩ := by
      rcases fill_spec (NewReader (regularFile data)) rfl hroom with
        ⟨he, -⟩ | ⟨p, rest, -, hsplit, hf, hp⟩
      · exact absurd he hd
      · simp only [NewReader, regularFile, List.length_nil, Nat.sub_zero] at hp hsplit hf
        have hk : min defaultBufSize (max 1 data.length) = data.length := by
          rw [max_eq_right hpos, min_eq_right hlen]
        rw [hk, List.take_length] at hp
        subst hp
        have hrest : rest = [] := by simpa using hsplit
        subst hrest
        simpa [NewReader, regularFile] using hf
    simp only [Reader.ReadString, Reader.collectLoop] at hrun
    cases hs : (NewReader (regularFile data)).ReadSlice d with
    | none => simp [hs] at hrun
    | some r =>
      obtain ⟨frag, e0, b0⟩ := r
      have hdata0 : b0.rd.data = [] := by
        have hstep : ∀ fuel, Reader.ReadSliceLoop d (fuel + 1) (NewReader (regularFile data))
            = Reader.ReadSliceLoop d fuel (NewReader (regularFile data)).fill := by
          intro fuel
          simp [Reader.ReadSliceLoop, NewReader, IndexByte, defaultBufSize]
        have hs2 : Reader.ReadSliceLoop d ((regularFile data).data.length + 1) _
            = some (frag, e0, b0) := (hstep _).symm.trans hs
        rw [hfill] at hs2
        exact ReadSliceLoop_at_end d _ _ rfl frag e0 b0 hs2
      cases e0 with
      | none =>
        simp only [hs, Option.some.injEq, Prod.mk.injEq] at hrun
        obtain ⟨-, -, rfl⟩ := hrun
        exact hdata0
      | some e1 =>
        cases e1 with
        | ErrBufferFull =>
          simp only [hs] at hrun
          exact collectLoop_at_end d _ b0 _ hdata0 res e b1 hrun
        | EOF =>
          simp only [hs, Option.some.injEq, Prod.mk.injEq] at hrun
          obtain ⟨-, -, rfl⟩ := hrun
          exact hdata0
        | ErrNoProgress =>
          simp only [hs, Option.some.injEq, Prod.mk.injEq] at hrun
          obtain ⟨-, -, rfl⟩ := hrun
          exact hdata0


/-- A result of `StringPrompt` comes from a loop state in which the loop was left. -/
theorem StringPrompt_eq_some (label : GoString) (fuel : Nat) (w w1 : World) (a : GoString)
    (h : StringPrompt label fuel w = some (a, w1)) :
    ∃ st, loop label fuel (enter w) = some st ∧ st.phase = .Done ∧ a = TrimSpace st.s ∧
      w1 = { w with stdin := st.r.rd, stderr := st.stderr } := by
  unfold StringPrompt at h
  cases hl : loop label fuel (enter w) with
  | none => simp [hl] at h
  | some st =>
    cases hp : st.phase with
    | Waiting => simp [hl, hp] at h
    | Done =>
      simp only [hl, hp, Option.some.injEq, Prod.mk.injEq] at h
      exact ⟨st, rfl, hp, h.1.symm, h.2.symm⟩

/-- On a terminal in line mode the reader never reads past the line it returns: when
`StringPrompt` returns, `os.Stdin` holds exactly the bytes after the accepted line. -/
theorem StringPrompt_on_terminal_keeps_rest (label : GoString) (data out err : GoString)
    (fuel : Nat) (a : GoString) (w1 : World)
    (h : StringPrompt label fuel ⟨terminal data, out, err⟩ = some (a, w1)) :
    w1.stdin.data = afterFirstLine 10 data := by
  obtain ⟨st, hrun, hdone, -, rfl⟩ := StringPrompt_eq_some label fuel _ w1 a h
  obtain ⟨e, hread⟩ := loop_done_reader label _ fuel st hrun hdone
  have hbuf : st.r.buf = [] :=
    collectLoop_terminal _ (NewReader (terminal data)) [] rfl
      (by intro i hi; simp [NewReader, IndexByte] at hi) st.s e st.r hread
  obtain ⟨st0, hrun0, -, -, hshape⟩ := loop_shape label ⟨terminal data, out, err⟩ fuel
  rw [hrun, Option.some.injEq] at hrun0
  subst hrun0
  rcases hshape with ⟨-, rfl⟩ | ⟨-, hw, -⟩ | ⟨-, -, -, hrest, -⟩
  · simp [enter] at hdone
  · rw [hw] at hdone; cases hdone
  · simpa [hbuf, terminal] using hrest

/-- On a regular file (or a finished pipe) that fits the reader's buffer the first read
takes the whole file: when `StringPrompt` returns, `os.Stdin` is at its end, whatever
followed the accepted line. -/
theorem StringPrompt_on_regular_file_drains_stdin (label : GoString) (data out err : GoString)
    (fuel : Nat) (a : GoString) (w1 : World) (hlen : data.length ≤ defaultBufSize)
    (h : StringPrompt label fuel ⟨regularFile data, out, err⟩ = some (a, w1)) :
    w1.stdin.data = [] := by
  obtain ⟨st, hrun, hdone, -, rfl⟩ := StringPrompt_eq_some label fuel _ w1 a h
  obtain ⟨e, hread⟩ := loop_done_reader label _ fuel st hrun hdone
  exact ReadString_regularFile_drains 10 data hlen st.s e st.r hread

theorem StringPrompt_keeps_stdout (label : GoString) (fuel : Nat) (w w1 : World)
    (a : GoString) (h : StringPrompt label fuel w = some (a, w1)) : w1.stdout = w.stdout := by
  obtain ⟨st, -, -, -, rfl⟩ := StringPrompt_eq_some label fuel w w1 a h
  rfl

/-! ## Properties of the program -/

/-- C1 (the code on the failing inputs): whatever follows a leading empty line, "world\n"
or a second empty line and "foo\n", `StringPrompt` leaves its loop after the first read,
which is "\n": the label has been written once (not two or three times) and the answer is
the empty string (not "world" or "foo"); on "\n\nfoo\n" `main` prints "Answer: \n". -/
theorem StringPrompt_empty_line_not_retried (label : GoString) (ready : GoString → Nat)
    (out err : GoString) (fuel : Nat) :
    (∀ rest : GoString,
      (loop label (fuel + 1) (enter ⟨⟨10 :: rest, ready⟩, out, err⟩)).map
          (fun st => (st.phase, st.reads, st.stderr))
        = some (Phase.Done, [str "\n"], err ++ label) ∧
      (StringPrompt label (fuel + 1) ⟨⟨10 :: rest, ready⟩, out, err⟩).map Prod.fst
        = some (str "")) ∧
    str "\nworld\n" = 10 :: str "world\n" ∧
    str "\n\nfoo\n" = 10 :: str "\nfoo\n" ∧
    (main (fuel + 1) ⟨⟨str "\n\nfoo\n", ready⟩, [], []⟩).map (fun w => (w.stdout, w.stderr))
      = some (str "Answer: \n", str "Question? ") := by
  have e3 : TrimSpace (str "\n") = str "" := by decide
  have e1 : ∀ rest : GoString, firstLine 10 (10 :: rest) = str "\n" := fun rest => by
    simp [firstLine]; decide
  refine ⟨fun rest => ?_, by decide, by decide, ?_⟩
  · obtain ⟨r1, hl, -⟩ :=
      loop_of_input label ⟨⟨10 :: rest, ready⟩, out, err⟩ fuel (by simp)
    obtain ⟨r2, hs, -⟩ :=
      StringPrompt_of_input label ⟨⟨10 :: rest, ready⟩, out, err⟩ fuel (by simp)
    constructor
    · rw [hl]; simp [e1]
    · rw [hs]; simp [e1, e3]
  · have h2 : (str "\n\nfoo\n") ≠ [] := by decide
    have e2 : firstLine 10 (str "\n\nfoo\n") = str "\n" := by decide
    obtain ⟨r5, hs3, -⟩ :=
      StringPrompt_of_input (str "Question? ") ⟨⟨str "\n\nfoo\n", ready⟩, [], []⟩ fuel h2
    simp only [main, hs3, e2, e3, Option.map_some', Printf]
    decide

/-- C2 (the code on the failing input): the whitespace-only line "   \n" is a non-empty
read, so `StringPrompt` leaves its loop with it after one attempt and one label write; the
answer is that line trimmed, the empty string, and the line "x\n" is never read. -/
theorem StringPrompt_blank_line_not_retried (label : GoString) (ready : GoString → Nat)
    (out err : GoString) (fuel : Nat) :
    (loop label (fuel + 1) (enter ⟨⟨str "   \nx\n", ready⟩, out, err⟩)).map
        (fun st => (st.phase, st.reads, st.stderr))
      = some (Phase.Done, [str "   \n"], err ++ label) ∧
    (StringPrompt label (fuel + 1) ⟨⟨str "   \nx\n", ready⟩, out, err⟩).map Prod.fst
      = some (str "") := by
  have h1 : (str "   \nx\n") ≠ [] := by decide
  obtain ⟨r1, hl1, -⟩ := loop_of_input label ⟨⟨str "   \nx\n", ready⟩, out, err⟩ fuel h1
  obtain ⟨r2, hs1, -⟩ := StringPrompt_of_input label ⟨⟨str "   \nx\n", ready⟩, out, err⟩ fuel h1
  have e1 : firstLine 10 (str "   \nx\n") = str "   \n" := by decide
  have e3 : TrimSpace (str "   \n") = str "" := by decide
  refine ⟨?_, ?_⟩
  · rw [hl1]; simp [e1]
  · rw [hs1]; simp [e1, e3]

/-- C3 (the code on the failing input): on the input "\n", and on " \t\r\n", `StringPrompt`
returns, and what it returns is the empty string. -/
theorem StringPrompt_returns_empty_string (label : GoString) (ready : GoString → Nat)
    (out err : GoString) (fuel : Nat) :
    (StringPrompt label (fuel + 1) ⟨⟨str "\n", ready⟩, out, err⟩).map Prod.fst = some [] ∧
    (StringPrompt label (fuel + 1) ⟨⟨str " \t\r\n", ready⟩, out, err⟩).map Prod.fst
      = some [] := by
  have h1 : (str "\n") ≠ [] := by decide
  have h2 : (str " \t\r\n") ≠ [] := by decide
  obtain ⟨r1, hs1, -⟩ := StringPrompt_of_input label ⟨⟨str "\n", ready⟩, out, err⟩ fuel h1
  obtain ⟨r2, hs2, -⟩ := StringPrompt_of_input label ⟨⟨str " \t\r\n", ready⟩, out, err⟩ fuel h2
  have e1 : TrimSpace (firstLine 10 (str "\n")) = [] := by decide
  have e2 : TrimSpace (firstLine 10 (str " \t\r\n")) = [] := by decide
  refine ⟨?_, ?_⟩
  · rw [hs1]; simp [e1]
  · rw [hs2]; simp [e2]

/-- C4: when the first raw line of the input has non-empty trimmed content, `StringPrompt`
returns, for every label and every budget of at least one pass, exactly that line with its
leading and trailing white space (the newline included) removed: the line is a run of
white space, the answer, and another run of white space; the answer neither begins nor
ends with a white space rune and holds no newline. The label does not enter into the
result. -/
theorem StringPrompt_returns_trimmed_first_line (w : World)
    (h : TrimSpace (firstLine 10 w.stdin.data) ≠ []) (label : GoString) (fuel : Nat) :
    (StringPrompt label (fuel + 1) w).map Prod.fst
      = some (TrimSpace (firstLine 10 w.stdin.data)) ∧
    ∃ answer pre post, (StringPrompt label (fuel + 1) w).map Prod.fst = some answer ∧
      firstLine 10 w.stdin.data = pre ++ answer ++ post ∧ SpaceRun pre ∧ SpaceRun post ∧
      answer ≠ [] ∧ IsSpace (DecodeRuneInString answer).1 = false ∧
      IsSpace (DecodeLastRuneInString answer).1 = false ∧ (10 : UInt8) ∉ answer := by
  obtain ⟨r1, hs, -⟩ :=
    StringPrompt_of_input label w fuel (TrimSpace_firstLine_ne_nil w.stdin.data h)
  have hret : (StringPrompt label (fuel + 1) w).map Prod.fst
      = some (TrimSpace (firstLine 10 w.stdin.data)) := by rw [hs]; rfl
  obtain ⟨pre, post, hsplit, hpre, hpost, hends⟩ := TrimSpace_spec (firstLine 10 w.stdin.data)
  obtain ⟨hfirst, hlast⟩ := hends.resolve_left h
  refine ⟨hret, TrimSpace (firstLine 10 w.stdin.data), pre, post, hret, hsplit, hpre, hpost,
    h, hfirst, hlast, ?_⟩
  intro hmem
  obtain ⟨a1, a2, ha⟩ := List.append_of_mem hmem
  have hline : firstLine 10 w.stdin.data = (pre ++ a1) ++ 10 :: (a2 ++ post) := by
    conv_lhs => rw [hsplit, ha]
    simp
  have hnil := firstLine_delim_last 10 _ _ _ hline
  have ha2 : a2 = [] := (List.append_eq_nil.mp hnil).1
  rw [ha, ha2, DecodeLast_ascii a1 10 (by decide)] at hlast
  revert hlast
  decide

/-- C4 on the input "  hello  \n": the answer is "hello", between the runs of white space
"  " and "  \n"; and on a line with white space beyond ASCII around "é x": the ideographic
space before it, the no-break space, a blank and the newline after it are removed. -/
theorem StringPrompt_returns_trimmed_first_line_witness :
    (TrimSpace (firstLine 10 (str "  hello  \n")) ≠ [] ∧
     firstLine 10 (str "  hello  \n") = str "  " ++ str "hello" ++ str "  \n" ∧
     (StringPrompt (str "Question? ") 1 ⟨regularFile (str "  hello  \n"), [], []⟩).map Prod.fst
       = some (str "hello")) ∧
    (TrimSpace (firstLine 10 (str "\u3000é x\u00a0 \nrest")) ≠ [] ∧
     firstLine 10 (str "\u3000é x\u00a0 \nrest")
       = str "\u3000" ++ str "é x" ++ str "\u00a0 \n" ∧
     (StringPrompt (str "Question? ") 1
        ⟨regularFile (str "\u3000é x\u00a0 \nrest"), [], []⟩).map Prod.fst
       = some (str "é x")) :=
  ⟨⟨by decide, by decide,
    (StringPrompt_returns_trimmed_first_line ⟨regularFile (str "  hello  \n"), [], []⟩
      (by decide) (str "Question? ") 0).1⟩,
   ⟨by decide, by decide,
    (StringPrompt_returns_trimmed_first_line
      ⟨regularFile (str "\u3000é x\u00a0 \nrest"), [], []⟩
      (by decide) (str "Question? ") 0).1⟩⟩

/-- C5: every pass through the loop writes the label once, as it is, before its one read;
so after any number of passes the error stream holds what it held before followed by one
copy of the label per read attempt and nothing else, and that is the error stream
`StringPrompt` returns with. -/
theorem stderr_holds_one_label_per_attempt (label : GoString) (w : World) (n : Nat) :
    (∀ st st1, attempt label st = some st1 →
      st1.stderr = st.stderr ++ label ∧ st1.reads = st.reads ++ [st1.s]) ∧
    ∃ st, loop label n (enter w) = some st ∧
      st.stderr = w.stderr ++ repeated label st.reads.length ∧
      (StringPrompt label n w).map (fun p => p.2.stderr)
        = if st.phase = .Done then some st.stderr else none := by
  refine ⟨?_, ?_⟩
  · intro st st1 h
    unfold attempt at h
    cases hr : st.r.ReadString 10 with
    | none => simp [hr] at h
    | some p =>
      obtain ⟨s, e, r⟩ := p
      simp only [hr, Option.some.injEq] at h
      subst h
      exact ⟨rfl, rfl⟩
  · obtain ⟨st, hrun, -, -, hshape⟩ := loop_shape label w n
    refine ⟨st, hrun, ?_, ?_⟩
    · rcases hshape with ⟨rfl, rfl⟩ | ⟨-, -, -, -, -, herr, hreads⟩ | ⟨-, -, -, -, herr, hreads⟩
      · simp [enter, repeated]
      · rw [herr, hreads]; simp
      · rw [herr, hreads]; simp [repeated]
    · simp only [StringPrompt, hrun]
      cases hp : st.phase <;> simp

/-- C6: when `StringPrompt` returns an answer to `main`, `main` appends to the output stream
exactly "Answer: ", the answer and a newline, once, and leaves the other streams as
`StringPrompt` left them; `StringPrompt` itself, whatever its label, returns with the output
stream as it found it. -/
theorem main_prints_one_answer_line (fuel : Nat) (w w1 : World) (a : GoString)
    (h : StringPrompt (str "Question? ") fuel w = some (a, w1)) :
    main fuel w = some { w1 with stdout := w.stdout ++ (str "Answer: " ++ a ++ str "\n") } ∧
    ∀ (label : GoString) (n : Nat) (b : GoString) (w2 : World),
      StringPrompt label n w = some (b, w2) → w2.stdout = w.stdout := by
  have hfmt : Sprintf (str "Answer: %s\n") [a] = str "Answer: " ++ a ++ str "\n" := rfl
  refine ⟨?_, fun label n b w2 h2 => StringPrompt_keeps_stdout label n w w2 b h2⟩
  simp only [main, h, Printf, hfmt, StringPrompt_keeps_stdout _ fuel w w1 a h]

/-- C6 for the answer "42": the output stream holds exactly "Answer: 42\n". -/
theorem main_prints_one_answer_line_witness :
    StringPrompt (str "Question? ") 1 ⟨regularFile (str "42\n"), [], []⟩
      = some (str "42", ⟨regularFile [], [], str "Question? "⟩) ∧
    main 1 ⟨regularFile (str "42\n"), [], []⟩
      = some ⟨regularFile [], str "Answer: 42\n", str "Question? "⟩ :=
  ⟨rfl, (main_prints_one_answer_line 1 ⟨regularFile (str "42\n"), [], []⟩
    ⟨regularFile [], [], str "Question? "⟩ (str "42") rfl).1⟩

/-- C7: on an exhausted input stream the loop is, after any number `n` of passes, still
waiting: every read so far has yielded the empty string, the label has been written `n`
times, the reader is as it was created; so `StringPrompt` does not return within any budget,
and neither does `main`. -/
theorem StringPrompt_starves_on_exhausted_input (label : GoString) (ready : GoString → Nat)
    (out err : GoString) (n : Nat) :
    loop label n (enter ⟨⟨[], ready⟩, out, err⟩)
      = some ⟨.Waiting, [], NewReader ⟨[], ready⟩, err ++ repeated label n,
          List.replicate n []⟩ ∧
    StringPrompt label n ⟨⟨[], ready⟩, out, err⟩ = none ∧
    main n ⟨⟨[], ready⟩, out, err⟩ = none := by
  have hl : ∀ (l : GoString), loop l n (enter ⟨⟨[], ready⟩, out, err⟩)
      = some ⟨.Waiting, [], NewReader ⟨[], ready⟩, err ++ repeated l n,
          List.replicate n []⟩ := by
    intro l
    simpa [enter, NewReader] using loop_of_no_input l ready n err []
  refine ⟨hl label, ?_, ?_⟩
  · simp [StringPrompt, hl label]
  · simp [main, StringPrompt, hl (str "Question? ")]

/-- C8: when the input ends without a newline and its trimmed content is not empty, the
one `ReadString` of the first pass returns all of it together with `io.EOF`; the error is
dropped, the loop is left after that single attempt, and `StringPrompt` returns the input
trimmed. -/
theorem StringPrompt_returns_unterminated_line (label : GoString) (w : World) (fuel : Nat)
    (hnl : (10 : UInt8) ∉ w.stdin.data) (h : TrimSpace w.stdin.data ≠ []) :
    (∃ r1, (NewReader w.stdin).ReadString 10 = some (w.stdin.data, some .EOF, r1)) ∧
    (loop label (fuel + 1) (enter w)).map (fun st => (st.phase, st.reads))
      = some (Phase.Done, [w.stdin.data]) ∧
    (StringPrompt label (fuel + 1) w).map Prod.fst = some (TrimSpace w.stdin.data) := by
  have hline : firstLine 10 w.stdin.data = w.stdin.data := firstLine_of_not_mem 10 _ hnl
  have hne : w.stdin.data ≠ [] := by
    apply TrimSpace_firstLine_ne_nil
    rwa [hline]
  obtain ⟨r0, hread, -⟩ := ReadString_spec 10 (NewReader w.stdin) rfl
  obtain ⟨r1, hl, -⟩ := loop_of_input label w fuel hne
  obtain ⟨r2, hs, -⟩ := StringPrompt_of_input label w fuel hne
  refine ⟨⟨r0, ?_⟩, ?_, ?_⟩
  · simpa [NewReader, hline, hnl] using hread
  · rw [hl]; simp [hline]
  · rw [hs]; simp [hline]

/-- C8 on the input " abc" followed by end of stream: one attempt, answer "abc". -/
theorem StringPrompt_returns_unterminated_line_witness :
    (10 : UInt8) ∉ str " abc" ∧ TrimSpace (str " abc") ≠ [] ∧
    (loop (str "Question? ") 1 (enter ⟨regularFile (str " abc"), [], []⟩)).map
        (fun st => (st.phase, st.reads)) = some (Phase.Done, [str " abc"]) ∧
    (StringPrompt (str "Question? ") 1 ⟨regularFile (str " abc"), [], []⟩).map Prod.fst
      = some (str "abc") :=
  ⟨by decide, by decide,
   (StringPrompt_returns_unterminated_line (str "Question? ")
    ⟨regularFile (str " abc"), [], []⟩ 0 (by decide) (by decide)).2⟩

/-- C9 fails on a regular file holding "a\nb\n": `StringPrompt` returns "a" after one
attempt that read the line "a\n", the bytes after that line are "b\n", and yet `os.Stdin`
is left with nothing to read: a later reader of it gets the empty string and `io.EOF`. -/
theorem later_reader_finds_stdin_drained :
    (loop (str "Question? ") 1 (enter ⟨regularFile (str "a\nb\n"), [], []⟩)).map
        (fun st => st.reads) = some [str "a\n"] ∧
    afterFirstLine 10 (str "a\nb\n") = str "b\n" ∧
    (StringPrompt (str "Question? ") 1 ⟨regularFile (str "a\nb\n"), [], []⟩).map
        (fun p => (p.1, p.2.stdin.data)) = some (str "a", []) ∧
    (StringPrompt (str "Question? ") 1 ⟨regularFile (str "a\nb\n"), [], []⟩).map
        (fun p => p.2.stdin.data) ≠ some (afterFirstLine 10 (str "a\nb\n")) ∧
    ((NewReader (regularFile [])).ReadString 10).map (fun p => (p.1, p.2.1))
      = some ([], some Error.EOF) := by
  refine ⟨by decide, by decide, by decide, by decide, by decide⟩

/-- C9 as amended: every pass takes exactly one line off the stream of the buffered reader
(its buffer, then the unread file): after the passes made so far, buffer and file together
hold the original input without its first lines, one per read attempt. `StringPrompt`
returns the file as the reader left it and drops the reader with its buffer, so a later
reader of `os.Stdin` finds the bytes after the accepted line that were not read ahead: all
of them on a terminal in line mode, none on a regular file that fits the buffer. -/
theorem reader_stream_loses_one_line_per_attempt (label : GoString) (w : World) (n : Nat)
    (st : Loop) (h : loop label n (enter w) = some st) :
    st.r.buf ++ st.r.rd.data = (afterFirstLine 10)^[st.reads.length] w.stdin.data ∧
    (∀ st1, st.phase = .Waiting → attempt label st = some st1 →
      st1.s = firstLine 10 (st.r.buf ++ st.r.rd.data) ∧
      st1.r.buf ++ st1.r.rd.data = afterFirstLine 10 (st.r.buf ++ st.r.rd.data)) ∧
    (∀ a w1, StringPrompt label n w = some (a, w1) →
      w1.stdin = st.r.rd ∧
      st.r.buf ++ w1.stdin.data = (afterFirstLine 10)^[st.reads.length] w.stdin.data ∧
      (w.stdin.ready = (terminal w.stdin.data).ready →
        w1.stdin.data = (afterFirstLine 10)^[st.reads.length] w.stdin.data) ∧
      (w.stdin.ready = (regularFile w.stdin.data).ready →
        w.stdin.data.length ≤ defaultBufSize → w1.stdin.data = [])) := by
  obtain ⟨st0, hrun, herr, -, hshape⟩ := loop_shape label w n
  rw [h, Option.some.injEq] at hrun
  subst hrun
  have hstream : st.r.buf ++ st.r.rd.data
      = (afterFirstLine 10)^[st.reads.length] w.stdin.data := by
    rcases hshape with ⟨-, rfl⟩ | ⟨hd, -, -, hbuf, hdata, -, -⟩ | ⟨-, -, -, hrest, -, hreads⟩
    · simp [enter, NewReader]
    · rw [hbuf, hdata, hd, iterate_afterFirstLine_nil]; rfl
    · rw [hrest, hreads]; rfl
  refine ⟨hstream, ?_, ?_⟩
  · intro st1 _ hatt
    obtain ⟨r1, hspec, -, -, hrest⟩ := attempt_spec label st herr
    rw [hatt, Option.some.injEq] at hspec
    subst hspec
    exact ⟨rfl, hrest⟩
  · intro a w1 hret
    obtain ⟨st2, hrun2, hdone, -, hw1⟩ := StringPrompt_eq_some label n w w1 a hret
    rw [h, Option.some.injEq] at hrun2
    subst hrun2
    have hstdin : w1.stdin = st.r.rd := by rw [hw1]
    have hone : (afterFirstLine 10)^[st.reads.length] w.stdin.data
        = afterFirstLine 10 w.stdin.data := by
      rcases hshape with ⟨-, rfl⟩ | ⟨-, hw, -⟩ | ⟨-, -, -, -, -, hreads⟩
      · simp [enter] at hdone
      · rw [hw] at hdone; cases hdone
      · rw [hreads]; rfl
    refine ⟨hstdin, by rw [hstdin]; exact hstream, ?_, ?_⟩
    · intro hready
      obtain ⟨⟨data, ready⟩, out, err⟩ := w
      simp only [terminal] at hready
      subst hready
      rw [hone]
      exact StringPrompt_on_terminal_keeps_rest label data out err n a w1 hret
    · intro hready hlen
      obtain ⟨⟨data, ready⟩, out, err⟩ := w
      simp only [regularFile] at hready
      subst hready
      exact StringPrompt_on_regular_file_drains_stdin label data out err n a w1 hlen hret

/-- C9 as amended, on "a\nb\n": read from a regular file, the one attempt leaves "b\n" in
the reader's buffer and the file drained, so nothing is left on `os.Stdin`; read from a
terminal in line mode, the buffer is left empty and "b\n" is still on `os.Stdin`. -/
theorem reader_stream_loses_one_line_per_attempt_witness :
    (loop (str "Question? ") 1 (enter ⟨regularFile (str "a\nb\n"), [], []⟩)
      = some ⟨.Done, str "a\n", ⟨str "b\n", regularFile [], none⟩, str "Question? ",
          [str "a\n"]⟩ ∧
     str "b\n" ++ [] = (afterFirstLine 10)^[1] (str "a\nb\n")) ∧
    (loop (str "Question? ") 1 (enter ⟨terminal (str "a\nb\n"), [], []⟩)
      = some ⟨.Done, str "a\n", ⟨[], terminal (str "b\n"), none⟩, str "Question? ",
          [str "a\n"]⟩ ∧
     [] ++ str "b\n" = (afterFirstLine 10)^[1] (str "a\nb\n")) :=
  ⟨⟨rfl, (reader_stream_loses_one_line_per_attempt (str "Question? ")
      ⟨regularFile (str "a\nb\n"), [], []⟩ 1
      ⟨.Done, str "a\n", ⟨str "b\n", regularFile [], none⟩, str "Question? ", [str "a\n"]⟩
      rfl).1⟩,
   ⟨rfl, (reader_stream_loses_one_line_per_attempt (str "Question? ")
      ⟨terminal (str "a\nb\n"), [], []⟩ 1
      ⟨.Done, str "a\n", ⟨[], terminal (str "b\n"), none⟩, str "Question? ", [str "a\n"]⟩
      rfl).1⟩⟩

/-- C10: the exit test of the loop is on the raw read. On any input of at least one byte
the first pass reads the first raw line (through the first newline, or everything when
there is none), finds it non-empty and leaves the loop: one read, the label written once,
and the answer is that line trimmed. In any run a pass keeps the loop waiting only when its
read yields the empty string, which is when the reader has nothing buffered and the file
is at its end. -/
theorem StringPrompt_exit_test_on_raw_read (label : GoString) (w : World) (fuel : Nat)
    (h : w.stdin.data ≠ []) :
    (loop label (fuel + 1) (enter w)).map (fun st => (st.phase, st.s, st.reads, st.stderr))
      = some (Phase.Done, firstLine 10 w.stdin.data, [firstLine 10 w.stdin.data],
          w.stderr ++ label) ∧
    (StringPrompt label (fuel + 1) w).map (fun p => (p.1, p.2.stderr))
      = some (TrimSpace (firstLine 10 w.stdin.data), w.stderr ++ label) ∧
    ∀ (w0 : World) (n : Nat) (st st1 : Loop), loop label n (enter w0) = some st →
      st.phase = .Waiting → attempt label st = some st1 →
      (st1.phase = .Waiting ↔ st1.s = []) ∧
      (st1.s = [] ↔ st.r.buf = [] ∧ st.r.rd.data = []) := by
  obtain ⟨r1, hl, -⟩ := loop_of_input label w fuel h
  obtain ⟨r2, hs, -⟩ := StringPrompt_of_input label w fuel h
  refine ⟨by rw [hl]; rfl, by rw [hs]; rfl, ?_⟩
  intro w0 n st st1 hrun _ hatt
  obtain ⟨st0, hrun0, herr, -, -⟩ := loop_shape label w0 n
  rw [hrun, Option.some.injEq] at hrun0
  subst hrun0
  obtain ⟨r3, hspec, -⟩ := attempt_spec label st herr
  rw [hatt, Option.some.injEq] at hspec
  subst hspec
  constructor
  · by_cases hne : firstLine 10 (st.r.buf ++ st.r.rd.data) = [] <;> simp [hne]
  · simp [firstLine_eq_nil_iff]

/-- C10 on the input "\nworld\n": one read, of "\n"; the label written once; the answer is
the empty string. -/
theorem StringPrompt_exit_test_on_raw_read_witness :
    str "\nworld\n" ≠ [] ∧
    (loop (str "Question? ") 1 (enter ⟨regularFile (str "\nworld\n"), [], []⟩)).map
        (fun st => (st.phase, st.s, st.reads, st.stderr))
      = some (Phase.Done, str "\n", [str "\n"], str "Question? ") ∧
    (StringPrompt (str "Question? ") 1 ⟨regularFile (str "\nworld\n"), [], []⟩).map
        (fun p => (p.1, p.2.stderr)) = some (str "", str "Question? ") :=
  ⟨by decide,
   (StringPrompt_exit_test_on_raw_read (str "Question? ")
      ⟨regularFile (str "\nworld\n"), [], []⟩ 0 (by decide)).1,
   (StringPrompt_exit_test_on_raw_read (str "Question? ")
      ⟨regularFile (str "\nworld\n"), [], []⟩ 0 (by decide)).2.1⟩

end Interactive
